import Mathlib

/-!
Verification of the Py-Backup sync engine (`Backup.py`) through a shallow
embedding in Lean.

The embedding models the pure algorithmic content of the program:

* `files_identical` — the identity comparator (chunked byte comparison);
* `BackupConfig` with `saveData` / `loadData` — the flat JSON persistence;
* the scan / dispatch / completion / prune phases of `SyncWorker._sync`,
  assembled in `sync`, over an explicit filesystem model (`FSNode`) and a
  `World` of oracles for the effectful parts (stat results, the cooperative
  stop flag, the completion order of the thread pool, injected I/O failures,
  and the bottom-up prune walk of the destination tree);
* `copy_file_symlink` — the symlink branch of `SyncWorker._copy_file` as a
  state transformer on the destination path's state.

Machine-level details that the claims do not touch (actual byte copying,
Qt signal plumbing, the GUI) are not modelled; every modelled branch follows
the corresponding Python line by line.
-/

namespace Backup

/-! ## Stat results

`StatRes` is the outcome of a Python `Path.stat()` call: success with a file
size, `FileNotFoundError`, or any other `OSError`.  The distinction between
`notFound` and `otherErr` matters because `Backup.py` catches exactly
`FileNotFoundError` in its scan and completion loops (lines 196-199 and
215-219) and in the file branch of the prune loop (lines 247-248). -/
inductive StatRes where
  | ok (size : Nat)
  | notFound
  | otherErr
deriving DecidableEq, Repr

/-! ## Identity comparator (`files_identical`, Backup.py lines 76-89)

Files are modelled as lists of byte values; the filesystem for this function
is a map from path to optional content.  `Path.exists` is content presence,
`stat().st_size` is content length. -/

/-- The `while True` read loop of `files_identical` (lines 82-88): read a
chunk from both files; a mismatched chunk returns `False`; an empty chunk on
the first file ends the loop with `True`. -/
def cmpChunks (chunk : Nat) (c1 c2 : List Nat) : Bool :=
  if _h1 : c1.take chunk ≠ c2.take chunk then false
  else if h2 : c1.take chunk = [] then true
  else cmpChunks chunk (c1.drop chunk) (c2.drop chunk)
termination_by c1.length
decreasing_by
  simp only [List.length_drop]
  rcases c1 with _ | ⟨a, c1'⟩
  · simp at h2
  · rcases Nat.eq_zero_or_pos chunk with hz | hp
    · subst hz; simp at h2
    · simp; omega

/-- `files_identical` (lines 76-89): missing path or size mismatch is
not-identical, otherwise compare contents in `chunk_size` chunks. -/
def files_identical (fs : String → Option (List Nat)) (path1 path2 : String)
    (chunk_size : Nat := 65536) : Bool :=
  match fs path1, fs path2 with
  | some c1, some c2 =>
      if c1.length ≠ c2.length then false
      else cmpChunks chunk_size c1 c2
  | _, _ => false

/-! ## Config persistence (`BackupConfig`, Backup.py lines 39-65) -/

/-- The configuration record (lines 39-44). -/
structure BackupConfig where
  name : String
  sources : List String
  excludes : List String
  destination : String
deriving DecidableEq, Repr

/-- The JSON values that `BackupConfig.save` writes: strings for `name` and
`destination`, lists of strings for `sources` and `excludes`. -/
inductive JVal where
  | jstr (s : String)
  | jlist (l : List String)
deriving DecidableEq, Repr

/-- The dict written by `BackupConfig.save` (line 51).  `json.dump` followed
by `json.load` reproduces this dict exactly for these value shapes, so the
persisted form is modelled as the dict itself. -/
def saveData (c : BackupConfig) : List (String × JVal) :=
  [("name", .jstr c.name), ("sources", .jlist c.sources),
   ("excludes", .jlist c.excludes), ("destination", .jstr c.destination)]

/-- Python `dict.get`: the value under the first matching key, if present. -/
def jsonGet (d : List (String × JVal)) (k : String) : Option JVal :=
  (d.find? (fun kv => kv.1 = k)).map (fun kv => kv.2)

/-- `BackupConfig.load` (lines 56-65): read each field with `data.get` and
its default (`path.stem` for the name, `[]` for the lists, `''` for the
destination).  A present key whose value has an unexpected shape falls back
to the default, which never happens on data written by `saveData`. -/
def loadData (stem : String) (d : List (String × JVal)) : BackupConfig :=
  { name := match jsonGet d "name" with | some (.jstr s) => s | _ => stem
    sources := match jsonGet d "sources" with | some (.jlist l) => l | _ => []
    excludes := match jsonGet d "excludes" with | some (.jlist l) => l | _ => []
    destination := match jsonGet d "destination" with | some (.jstr s) => s | _ => "" }

/-! ## Filesystem model for the scan phase

`FSNode` is a snapshot of a source tree as `os.walk` observes it.  Every
non-directory node carries the `StatRes` that `fp.stat()` would produce at
scan time, which may be `notFound` when the file disappears between the walk
seeing its name and the size query (Backup.py lines 196-199).

`symlink` records the target string and whether `entry.is_dir()` — which
follows the link — holds for it: with `followlinks=False`, `os.walk` puts a
symlink whose target is a directory into `dirs` (without descending into it)
and every other entry into `files`. -/
inductive FSNode where
  | fileNode (st : StatRes)
  | symlink (target : String) (targetIsDir : Bool) (st : StatRes)
  | dir (entries : List (String × FSNode))
deriving Repr

/-- `entry.is_dir()` (follows symlinks): the test `os.walk` uses to split a
directory's entries into `dirs` and `files`. -/
def isDirEntry : FSNode → Bool
  | .dir _ => true
  | .symlink _ targetIsDir _ => targetIsDir
  | .fileNode _ => false

/-- A directory proper (not a symlink): the only entries `os.walk` descends
into when `followlinks=False`. -/
def isRealDir : FSNode → Bool
  | .dir _ => true
  | _ => false

/-- Path join as `Path(root) / f` on absolute roots. -/
def joinPath (a b : String) : String := a ++ "/" ++ b

/-- Relative-path join: `Path(root).relative_to(srcp) / f` is `f` itself for
files directly under the source root (`Path('.') / f == Path(f)`). -/
def joinRel (r n : String) : String := if r = "" then n else r ++ "/" ++ n

/-- `Path(src).name`: the last nonempty component of the path — the
characters after the last separator, trailing separators dropped (pathlib
normalizes them away). -/
def pathName (s : String) : String :=
  ⟨((s.data.reverse.dropWhile (fun c => c = '/')).takeWhile (fun c => c ≠ '/')).reverse⟩

/-- What the stat call of the scan loop returns for a walked entry.  `os.walk`
never yields a directory node in `files`, so the `dir` case is unreachable;
it is given an arbitrary successful result. -/
def statOf : FSNode → StatRes
  | .fileNode st => st
  | .symlink _ _ st => st
  | .dir _ => .ok 0

/-- Size contributed to `total_bytes` by a stat result: the size on success,
nothing when the stat fails. -/
def statSize (st : StatRes) : Nat :=
  match st with
  | .ok n => n
  | _ => 0

/-- One entry yielded by the walk: its absolute path, its path relative to
the source root, and the node found there. -/
structure RawEntry where
  abs : String
  rel : String
  node : FSNode
deriving Repr

mutual

/-- `os.walk(srcp, followlinks=False)` restricted to what the scan loop
consumes: the flat, top-down list of `files` entries of every visited
directory.  The current directory's `files` come first, then the recursive
walks of its genuine subdirectories, in order.  Symlinked directories are
classified into `dirs` (so never yielded here) and are not descended into. -/
def walkDir (abs rel : String) : FSNode → List RawEntry
  | .dir entries => walkFiles abs rel entries ++ walkSubdirs abs rel entries
  | _ => []

/-- The `files` component of one `os.walk` triple. -/
def walkFiles (abs rel : String) : List (String × FSNode) → List RawEntry
  | [] => []
  | (n, node) :: rest =>
      (if isDirEntry node then [] else [⟨joinPath abs n, joinRel rel n, node⟩])
        ++ walkFiles abs rel rest

/-- The recursive descent of `os.walk` into genuine (non-symlink)
subdirectories. -/
def walkSubdirs (abs rel : String) : List (String × FSNode) → List RawEntry
  | [] => []
  | (n, node) :: rest =>
      (if isRealDir node then walkDir (joinPath abs n) (joinRel rel n) node else [])
        ++ walkSubdirs abs rel rest

end

/-! ## Scan phase (`SyncWorker._sync`, Backup.py lines 182-199) -/

/-- One element of `file_map`: `(fp, rel_path, srcp.name)`. -/
structure SyncTask where
  src : String
  rel : String
  base : String
deriving DecidableEq, Repr

/-- `SyncWorker._is_excluded` (lines 117-122): glob-match the absolute path
against every exclude pattern.  `fnmatch` itself is Python library code and
enters the model as the oracle `fm`. -/
def is_excluded (excludes : List String) (fm : String → String → Bool)
    (p : String) : Bool :=
  excludes.any (fun pat => fm p pat)

/-- The `file_map` entry built from a walked entry (line 195). -/
def toTask (base : String) (e : RawEntry) : SyncTask :=
  ⟨e.abs, e.rel, base⟩

/-- The inner scan loop over one source's walked entries (lines 190-199):
drop excluded paths, append to `file_map`, then add `fp.stat().st_size` to
`total_bytes` — where `FileNotFoundError` skips only the size and any other
stat error propagates, aborting the whole `_sync`. -/
def scanEntries (excludes : List String) (fm : String → String → Bool)
    (base : String) : List RawEntry → Except Unit (List SyncTask × Nat)
  | [] => .ok ([], 0)
  | e :: rest =>
      if is_excluded excludes fm e.abs then scanEntries excludes fm base rest
      else
        match statOf e.node with
        | .ok n =>
            (scanEntries excludes fm base rest).map
              (fun r => (toTask base e :: r.1, n + r.2))
        | .notFound =>
            (scanEntries excludes fm base rest).map
              (fun r => (toTask base e :: r.1, r.2))
        | .otherErr => .error ()

/-! ## The oracle world of one run -/

/-- Outcome of a deletion attempt in the prune phase: success,
`FileNotFoundError`, or any other exception. -/
inductive DelRes where
  | ok
  | notFound
  | otherFail
deriving DecidableEq, Repr

/-- One pruning candidate in the destination walk of lines 229-262: its
path, whether the walk listed it among `dirs` or `files`, whether
`orig_file.exists()` held, and what the deletion attempt would return. -/
structure PruneItem where
  path : String
  isDir : Bool
  origExists : Bool
  delRes : DelRes
deriving DecidableEq, Repr

/-- The effectful context of one `_sync` run.  Pure data of the run comes
from the `BackupConfig`; everything the run observes from the operating
system or from the other threads is an oracle here:

* `fsTree` — the source trees (`None` models `srcp.exists()` false);
* `fm` — `fnmatch.fnmatch`;
* `stopAt i` — the value of `self._stop` read just before dispatching the
  `i`-th task (the flag is set from another thread, so each read is free);
* `order` — the indices of dispatched tasks in the order `as_completed`
  yields their futures (a permutation of the dispatched indices in any real
  execution; theorems that need this assume it);
* `copyFail p` — an injected failure inside the `try` blocks of
  `_copy_file` for the task with source `p` (`none` means the copy ran
  without raising);
* `doneStat p` — the result of `src_file.stat()` in the completion loop,
  a second, later stat of the same path as the scan's;
* `rootExists r` — `backup_root.exists()` in the prune loop;
* `pruneItems r` — the bottom-up destination walk under `backup_root = r`
  in processed order (per directory: files before subdirectories, leaves
  before parents), with each candidate's source-existence test and deletion
  outcome. -/
structure World where
  fsTree : String → Option FSNode
  fm : String → String → Bool
  stopAt : Nat → Bool
  order : List Nat
  copyFail : String → Option String
  doneStat : String → StatRes
  rootExists : String → Bool
  pruneItems : String → List PruneItem

/-- Observable events of a run: the Qt signals (`scanning_started`,
`scanning_finished`, `status`, `progress`) plus `logger.warning` records. -/
inductive Event where
  | scanStarted
  | scanFinished
  | status (msg : String)
  | progress (pct : Nat)
  | warn (msg : String)
deriving DecidableEq, Repr

/-- The scan over all configured sources (lines 184-199).  A missing source
root is a warning and is skipped; a non-`FileNotFoundError` stat failure
aborts the scan (the events emitted so far stand, the partial `file_map`
and `total_bytes` are discarded with the raised exception). -/
def scanAll (w : World) (excludes : List String) :
    List String → List Event × Except Unit (List SyncTask × Nat)
  | [] => ([], .ok ([], 0))
  | src :: rest =>
      match w.fsTree src with
      | none =>
          (.warn ("Source does not exist: " ++ src) :: (scanAll w excludes rest).1,
            (scanAll w excludes rest).2)
      | some t =>
          match scanEntries excludes w.fm (pathName src) (walkDir src "" t) with
          | .error _ => ([], .error ())
          | .ok (ts, tot) =>
              ((scanAll w excludes rest).1,
                (scanAll w excludes rest).2.map (fun p => (ts ++ p.1, tot + p.2)))

/-! ## Dispatch (`_sync` lines 205-212)

The submission loop reads `self._stop` before each `executor.submit`; the
first `true` read emits `Stopped by user` and breaks, so the dispatched
tasks are a prefix of `file_map`. -/

/-- The submission loop, started at index `i`.  Returns the dispatched tasks
and the events of the loop. -/
def dispatchGo (stopAt : Nat → Bool) : Nat → List SyncTask → List SyncTask × List Event
  | _, [] => ([], [])
  | i, t :: rest =>
      if stopAt i then ([], [.status "Stopped by user"])
      else
        (t :: (dispatchGo stopAt (i + 1) rest).1, (dispatchGo stopAt (i + 1) rest).2)

/-! ## Completion loop (`_sync` lines 213-221)

`as_completed` yields the dispatched futures in completion order.  For each:
the worker's `_copy_file` already ran (its statuses and warnings are
attributed here, at processing time; the per-entry copy algorithms
themselves are modelled below as `copy_file_symlink`); then
`src_file.stat().st_size` is added to `copied_bytes` — `FileNotFoundError`
skips to the next future (no progress event), any other stat error
propagates out of `_sync` — and `int(copied/total*100)` (100 when
`total_bytes` is zero) is emitted.  The float division of line 220 is
modelled as exact arithmetic, `copied * 100 / total` in `Nat`. -/

/-- The status or warning of one completed `_copy_file` call. -/
def copyEventOf (copyFail : String → Option String) (t : SyncTask) : Event :=
  match copyFail t.src with
  | none => .status ("Copied: " ++ t.src)
  | some e => .warn ("Failed to copy " ++ t.src ++ ": " ++ e)

/-- The progress formula of line 220. -/
def pctOf (total copied : Nat) : Nat :=
  if total = 0 then 100 else copied * 100 / total

/-- The `for future in as_completed(futures)` loop.  `order` indexes into
the dispatched `tasks`; `copied` is the running `copied_bytes`.  Returns the
events, the final `copied_bytes`, and `some ()` when a stat error escaped
the loop. -/
def completionGo (copyFail : String → Option String) (doneStat : String → StatRes)
    (tasks : List SyncTask) (total : Nat) :
    List Nat → Nat → List Event × Nat × Option Unit
  | [], copied => ([], copied, none)
  | j :: rest, copied =>
      match tasks[j]? with
      | none => completionGo copyFail doneStat tasks total rest copied
      | some t =>
          match doneStat t.src with
          | .ok n =>
              (copyEventOf copyFail t ::
                  .progress (pctOf total (copied + n)) ::
                  (completionGo copyFail doneStat tasks total rest (copied + n)).1,
                (completionGo copyFail doneStat tasks total rest (copied + n)).2)
          | .notFound =>
              (copyEventOf copyFail t ::
                  (completionGo copyFail doneStat tasks total rest copied).1,
                (completionGo copyFail doneStat tasks total rest copied).2)
          | .otherErr => ([copyEventOf copyFail t], copied, some ())

/-! ## Prune phase (`_sync` lines 223-262) -/

/-- Processing of one bottom-up destination walk (lines 229-262).  A
candidate whose source counterpart exists is untouched.  Otherwise a file is
deleted with only `FileNotFoundError` tolerated (silently — no warning);
any other file-deletion failure propagates, aborting the walk.  A directory
is removed with `shutil.rmtree` under a catch-all `except` that logs a
warning; directory failures never propagate. -/
def pruneGo : List PruneItem → List Event × Option Unit
  | [] => ([], none)
  | it :: rest =>
      if it.origExists then pruneGo rest
      else if it.isDir then
        match it.delRes with
        | .ok => (.status ("Deleted folder: " ++ it.path) :: (pruneGo rest).1, (pruneGo rest).2)
        | _ => (.warn ("Failed to delete folder " ++ it.path) :: (pruneGo rest).1, (pruneGo rest).2)
      else
        match it.delRes with
        | .ok => (.status ("Deleted: " ++ it.path) :: (pruneGo rest).1, (pruneGo rest).2)
        | .notFound => pruneGo rest
        | .otherFail => ([], some ())

/-- The prune loop over all configured sources (lines 224-228): for each
source, the destination subdirectory `dest_root / srcp.name` is walked if it
exists.  A propagated deletion failure aborts the remaining sources too. -/
def pruneAll (w : World) (destRoot : String) : List String → List Event × Option Unit
  | [] => ([], none)
  | src :: rest =>
      if w.rootExists (joinPath destRoot (pathName src)) then
        match (pruneGo (w.pruneItems (joinPath destRoot (pathName src)))).2 with
        | some e => ((pruneGo (w.pruneItems (joinPath destRoot (pathName src)))).1, some e)
        | none =>
            ((pruneGo (w.pruneItems (joinPath destRoot (pathName src)))).1 ++
                (pruneAll w destRoot rest).1,
              (pruneAll w destRoot rest).2)
      else pruneAll w destRoot rest

/-! ## The orchestrated run (`SyncWorker._sync`, lines 174-265) -/

/-- Python `a or b` for an optional string `a` (`destination_override or
config.destination`): the empty string and `None` are falsy. -/
def pyOr (a : Option String) (b : String) : String :=
  match a with
  | some s => if s = "" then b else s
  | none => b

/-- `pathlib.Path` normalizes the empty string to `'.'`. -/
def pathOf (s : String) : String := if s = "" then "." else s

/-- Python truthiness of a `pathlib.Path` object: `Path` defines neither
`__bool__` nor `__len__`, so every `Path` instance — including `Path('')`,
which is `Path('.')` — is truthy.  The guard `if not dest_root:` of line 176
therefore never fires. -/
def pathTruthy (_p : String) : Bool := true

/-- The observable outcome of `_sync`: the emitted events, the scan's
`file_map` and `total_bytes`, the dispatched tasks, and `some msg` when an
exception escaped `_sync` (to be caught by `run`, line 111). -/
structure SyncOut where
  events : List Event
  manifest : List SyncTask
  total : Nat
  tasks : List SyncTask
  err : Option String
deriving Repr

/-- `SyncWorker._sync` (lines 174-265) assembled from its phases:
destination resolution and the (dead) missing-destination guard; scan;
dispatch; completion; prune; the final `Sync completed` status and
`progress(100)`. -/
def sync (cfg : BackupConfig) (ov : Option String) (w : World) : SyncOut :=
  if pathTruthy (pathOf (pyOr ov cfg.destination)) = false then
    { events := [.status "No destination set."], manifest := [], total := 0,
      tasks := [], err := none }
  else
    match (scanAll w cfg.excludes cfg.sources).2 with
    | .error _ =>
        { events := .scanStarted :: (scanAll w cfg.excludes cfg.sources).1,
          manifest := [], total := 0,
          tasks := [], err := some "stat failed during scan" }
    | .ok (manifest, total) =>
        match (completionGo w.copyFail w.doneStat (dispatchGo w.stopAt 0 manifest).1
            total w.order 0).2.2 with
        | some _ =>
            { events := .scanStarted :: (scanAll w cfg.excludes cfg.sources).1
                ++ [.scanFinished] ++ (dispatchGo w.stopAt 0 manifest).2
                ++ (completionGo w.copyFail w.doneStat (dispatchGo w.stopAt 0 manifest).1
                    total w.order 0).1,
              manifest := manifest, total := total,
              tasks := (dispatchGo w.stopAt 0 manifest).1,
              err := some "stat failed in completion loop" }
        | none =>
            match (pruneAll w (pathOf (pyOr ov cfg.destination)) cfg.sources).2 with
            | some _ =>
                { events := .scanStarted :: (scanAll w cfg.excludes cfg.sources).1
                    ++ [.scanFinished] ++ (dispatchGo w.stopAt 0 manifest).2
                    ++ (completionGo w.copyFail w.doneStat
                        (dispatchGo w.stopAt 0 manifest).1 total w.order 0).1
                    ++ (pruneAll w (pathOf (pyOr ov cfg.destination)) cfg.sources).1,
                  manifest := manifest, total := total,
                  tasks := (dispatchGo w.stopAt 0 manifest).1,
                  err := some "file deletion failed during pruning" }
            | none =>
                { events := .scanStarted :: (scanAll w cfg.excludes cfg.sources).1
                    ++ [.scanFinished] ++ (dispatchGo w.stopAt 0 manifest).2
                    ++ (completionGo w.copyFail w.doneStat
                        (dispatchGo w.stopAt 0 manifest).1 total w.order 0).1
                    ++ (pruneAll w (pathOf (pyOr ov cfg.destination)) cfg.sources).1
                    ++ [.status "Sync completed", .progress 100],
                  manifest := manifest, total := total,
                  tasks := (dispatchGo w.stopAt 0 manifest).1, err := none }

/-- The progress percent values of an event list, in order. -/
def progressValues (es : List Event) : List Nat :=
  es.filterMap (fun e => match e with | .progress n => some n | _ => none)

/-! ## The symlink branch of `SyncWorker._copy_file` (Backup.py lines 124-156)

The destination path's state is one of: nothing there, a regular file, a
real directory, or a symlink with some target string.  What the target
string resolves to in the destination's context is the oracle `resolve`:
`Path.exists()` and `Path.is_dir()` follow the link, so for a symlink they
are questions about its target. -/

/-- What a symlink target resolves to. -/
inductive TargetKind where
  | missing
  | fileK
  | dirK
deriving DecidableEq, Repr

/-- State of the destination path before/after `_copy_file`. -/
inductive DestState where
  | absent
  | regular
  | directory
  | symlinkTo (target : String)
deriving DecidableEq, Repr

/-- `os.path.lexists`: is there any entry at the path, dangling links
included.  This is what makes `os.symlink` raise `FileExistsError`. -/
def destLExists : DestState → Bool
  | .absent => false
  | _ => true

/-- `Path.exists()` — follows symlinks, so a dangling symlink does not
"exist". -/
def destExists (resolve : String → TargetKind) : DestState → Bool
  | .absent => false
  | .regular => true
  | .directory => true
  | .symlinkTo t => resolve t ≠ .missing

/-- `Path.is_symlink()`. -/
def destIsSymlink : DestState → Bool
  | .symlinkTo _ => true
  | _ => false

/-- `Path.is_dir()` — follows symlinks. -/
def destIsDir (resolve : String → TargetKind) : DestState → Bool
  | .directory => true
  | .symlinkTo t => resolve t = .dirK
  | _ => false

/-- `os.readlink` on the destination state. -/
def readlinkOf : DestState → Option String
  | .symlinkTo t => some t
  | _ => none

/-- Filesystem mutations the symlink branch can perform. -/
inductive FsAction where
  | rmtreeA
  | unlinkA
  | symlinkA (target : String)
deriving DecidableEq, Repr

/-- The symlink branch of `_copy_file` (lines 125-156), for an entry whose
source is a symlink with target `target`, on a destination in state `st`:
the filesystem actions performed, the resulting destination state, and the
emitted statuses.  Removal and creation are modelled as succeeding (injected
I/O failures are the `copyFail` oracle of the orchestrated run); the
`FileExistsError` branch of line 151 fires exactly when the creation target
still `lexists` — which happens precisely when the destination was a
dangling symlink, since `dest_file.exists()` on line 127 followed the link
and skipped the removal. -/
def copy_file_symlink (target : String) (resolve : String → TargetKind)
    (st : DestState) : List FsAction × DestState × List Event :=
  if destExists resolve st then
    if destIsSymlink st = true ∧ readlinkOf st = some target then
      ([], st, [.status "Symlink unchanged"])
    else
      let removal : FsAction :=
        if destIsDir resolve st ∧ ¬ destIsSymlink st then .rmtreeA else .unlinkA
      ([removal, .symlinkA target], .symlinkTo target,
        [.status ("Symlink created: -> " ++ target)])
  else
    if destLExists st then
      ([], st, [.status "Symlink already exists (ignored)"])
    else
      ([.symlinkA target], .symlinkTo target,
        [.status ("Symlink created: -> " ++ target)])

/-! ## Specification-side helpers -/

/-- The entries a depth-first walk of a source tree visits when it does not
follow symlinked directories, as the specification describes it: every child
of the root directory, and recursively every child of a visited genuine
(non-symlink) subdirectory.  This is the specification's notion of
"reachable"; it is compared against what the scanner actually collects. -/
inductive Visits : String → FSNode → String → FSNode → Prop where
  | here {path : String} {entries : List (String × FSNode)} {name : String}
      {node : FSNode} :
      (name, node) ∈ entries → Visits path (.dir entries) (joinPath path name) node
  | deeper {path : String} {entries : List (String × FSNode)} {name : String}
      {sub : List (String × FSNode)} {p : String} {n : FSNode} :
      (name, .dir sub) ∈ entries → Visits (joinPath path name) (.dir sub) p n →
      Visits path (.dir entries) p n

/-- Cumulative sums: `prefixSums acc ns` lists the running totals of
`acc + n₁`, `acc + n₁ + n₂`, ... -/
def prefixSums (acc : Nat) : List Nat → List Nat
  | [] => []
  | n :: ns => (acc + n) :: prefixSums (acc + n) ns

/-- The byte counts the completion loop adds per processed future, in
processing order: the completion-time size of each statable task, truncated
at the first stat error that escapes the loop. -/
def completedSizes (doneStat : String → StatRes) (tasks : List SyncTask) :
    List Nat → List Nat
  | [] => []
  | j :: rest =>
      match tasks[j]? with
      | none => completedSizes doneStat tasks rest
      | some t =>
          match doneStat t.src with
          | .ok n => n :: completedSizes doneStat tasks rest
          | .notFound => completedSizes doneStat tasks rest
          | .otherErr => []

/-- All entries walked over every existing source root of a run. -/
def allRawEntries (w : World) (sources : List String) : List RawEntry :=
  sources.flatMap (fun src =>
    match w.fsTree src with
    | some t => walkDir src "" t
    | none => [])

/-- The status event the prune phase emits for a successful deletion. -/
def eventOfPrune (it : PruneItem) : Event :=
  .status ((if it.isDir then "Deleted folder: " else "Deleted: ") ++ it.path)

/-! ## Concrete fixtures for evaluated runs -/

/-- A glob oracle that matches nothing. -/
def fmFalse : String → String → Bool := fun _ _ => false

/-- A glob oracle for literal patterns: a pattern with no wildcard matches
exactly itself (a special case of `fnmatch`). -/
def fmLit : String → String → Bool := fun s pat => s == pat

/-- The empty world: no sources, nothing statable, never stopped. -/
def baseWorld : World :=
  { fsTree := fun _ => none
    fm := fmFalse
    stopAt := fun _ => false
    order := []
    copyFail := fun _ => none
    doneStat := fun _ => .notFound
    rootExists := fun _ => false
    pruneItems := fun _ => [] }

/-- A config whose destination is unset (the empty string), with one
source. -/
def cfgNoDest : BackupConfig :=
  { name := "job", sources := ["/s"], excludes := [], destination := "" }

/-- A world for `cfgNoDest`: one source with one 1-byte file, and a stale
entry under the (current-directory) destination. -/
def wNoDest : World :=
  { baseWorld with
    fsTree := fun p => if p = "/s" then some (.dir [("a", .fileNode (.ok 1))]) else none
    order := [0]
    doneStat := fun _ => .ok 1
    rootExists := fun r => r == "./s"
    pruneItems := fun _ => [⟨"./s/gone", false, false, .ok⟩] }

/-- A config with a set destination, used by the failure fixtures. -/
def cfgDest : BackupConfig :=
  { name := "job", sources := ["/s"], excludes := [], destination := "/d" }

/-- A world where the first stale file's deletion raises a non-`FileNotFound`
error while a second stale file would delete fine. -/
def wDeleteFail : World :=
  { baseWorld with
    fsTree := fun p => if p = "/s" then some (.dir []) else none
    rootExists := fun r => r == "/d/s"
    pruneItems := fun _ =>
      [⟨"/d/s/x", false, false, .otherFail⟩, ⟨"/d/s/y", false, false, .ok⟩] }

/-- A world where file `b` is unstatable at scan time (counted as 0 toward
`total_bytes`) but statable, with 50 bytes, at completion time. -/
def wShiftStat : World :=
  { baseWorld with
    fsTree := fun p =>
      if p = "/s" then
        some (.dir [("a", .fileNode (.ok 1)), ("b", .fileNode .notFound)])
      else none
    order := [1, 0]
    doneStat := fun p => if p = "/s/b" then .ok 50 else .ok 1 }

/-- A world whose single source file's stat raises a non-`FileNotFound`
error during the scan. -/
def wStatAbort : World :=
  { baseWorld with
    fsTree := fun p => if p = "/s" then some (.dir [("a", .fileNode .otherErr)]) else none }

/-- A source tree whose only entry is a symlink to a directory. -/
def treeSymlinkDir : FSNode := .dir [("L", .symlink "T" true (.ok 0))]

/-- A config with one literal exclude pattern. -/
def cfgExcl : BackupConfig :=
  { name := "job", sources := ["/s"], excludes := ["/s/tmp"], destination := "/d" }

/-- A world for `cfgExcl`: the source holds an excluded file and a kept
file. -/
def wExcl : World :=
  { baseWorld with
    fsTree := fun p =>
      if p = "/s" then
        some (.dir [("tmp", .fileNode (.ok 3)), ("keep", .fileNode (.ok 2))])
      else none
    fm := fmLit
    order := [0]
    doneStat := fun _ => .ok 2 }

/-- A stop flag set from the second dispatch onward. -/
def wStopped : World :=
  { baseWorld with
    fsTree := fun p =>
      if p = "/s" then
        some (.dir [("a", .fileNode (.ok 1)), ("b", .fileNode (.ok 1))])
      else none
    stopAt := fun i => decide (1 ≤ i)
    order := [0]
    doneStat := fun _ => .ok 1
    rootExists := fun r => r == "/d/s"
    pruneItems := fun _ => [⟨"/d/s/stale", false, false, .ok⟩] }

/-- The completion-time byte count the loop would add for dispatched index
`j`: the stat size of the task's source, 0 when the index is out of range or
the stat did not succeed. -/
def doneSizeAt (ds : String → StatRes) (tasks : List SyncTask) (j : Nat) : Nat :=
  match tasks[j]? with
  | some t => statSize (ds t.src)
  | none => 0

/-- A stable single-file world: filling 2 bytes, statable identically at
scan and completion time. -/
def wC5w : World :=
  { baseWorld with
    fsTree := fun p => if p = "/s" then some (.dir [("a", .fileNode (.ok 2))]) else none
    order := [0]
    doneStat := fun _ => .ok 2 }

/-! # Theorems -/

/-! ## C10 — config persistence round-trip -/

/-- C10: Round-trip of config persistence — saving a `BackupConfig` and
loading the written data yields a config with the same name, sources,
excludes, and destination. -/
theorem c10_config_roundtrip (c : BackupConfig) (stem : String) :
    loadData stem (saveData c) = c := rfl

/-! ## C4 — the identity comparator -/

/-- With a positive chunk size, the read loop decides list equality of two
equal-length contents. -/
theorem cmpChunks_eq_true (chunk : Nat) (hc : 0 < chunk) (c1 c2 : List Nat)
    (h : c1.length = c2.length) : cmpChunks chunk c1 c2 = true ↔ c1 = c2 := by
  rw [cmpChunks]
  split_ifs with h1 h2
  · simp only [Bool.false_eq_true, false_iff]
    intro he
    exact h1 (by rw [he])
  · have hnil : c1 = [] := by
      rcases List.take_eq_nil_iff.mp h2 with hz | hz
      · exact absurd hz (by omega)
      · exact hz
    have hnil2 : c2 = [] := by
      rw [hnil] at h
      exact List.eq_nil_of_length_eq_zero h.symm
    simp [hnil, hnil2]
  · have hb : c1.take chunk = c2.take chunk := not_not.mp h1
    have hlen : (c1.drop chunk).length = (c2.drop chunk).length := by
      simp [h]
    rw [cmpChunks_eq_true chunk hc _ _ hlen]
    constructor
    · intro hd
      calc c1 = c1.take chunk ++ c1.drop chunk := (List.take_append_drop _ _).symm
        _ = c2.take chunk ++ c2.drop chunk := by rw [hb, hd]
        _ = c2 := List.take_append_drop _ _
    · intro he
      rw [he]
termination_by c1.length
decreasing_by
  simp only [List.length_drop]
  rcases c1 with _ | ⟨a, c1t⟩
  · simp at h2
  · rcases Nat.eq_zero_or_pos chunk with hz | hp
    · omega
    · simp; omega

/-- C4: The identity comparator returns not-identical when either path is
missing or the sizes differ, and — streaming in 64 KiB chunks — returns
identical exactly when both files exist with equal size and equal
byte-for-byte content. -/
theorem c4_files_identical_iff (fs : String → Option (List Nat)) (p1 p2 : String) :
    files_identical fs p1 p2 = true ↔ ∃ c, fs p1 = some c ∧ fs p2 = some c := by
  unfold files_identical
  cases hf1 : fs p1 with
  | none => simp
  | some c1 =>
      cases hf2 : fs p2 with
      | none => simp
      | some c2 =>
          simp only []
          split_ifs with hne
          · simp only [Bool.false_eq_true, false_iff]
            rintro ⟨c, hc1, hc2⟩
            rw [Option.some_inj] at hc1 hc2
            exact hne (by rw [hc1, hc2])
          · rw [cmpChunks_eq_true 65536 (by norm_num) c1 c2 (not_not.mp hne)]
            constructor
            · intro he
              exact ⟨c1, rfl, by rw [he]⟩
            · rintro ⟨c, hc1, hc2⟩
              rw [Option.some_inj] at hc1 hc2
              rw [hc1, hc2]

/-! ## C2 — symlink replication -/

/-- C2 counterexample: when the destination is a *dangling* symlink with a
different target, `dest_file.exists()` is false, so no removal happens; the
creation then hits `FileExistsError`, which line 151 ignores.  The engine
performs zero removals and zero recreations, and the destination's target
stays `"old"`, different from the source target `"new"` — contradicting the
claim that after the run the targets are equal via exactly one
remove+recreate. -/
theorem c2_counterexample_dangling_symlink :
    (copy_file_symlink "new" (fun _ => .missing) (.symlinkTo "old")).1 = [] ∧
    readlinkOf (copy_file_symlink "new" (fun _ => .missing) (.symlinkTo "old")).2.1 =
      some "old" ∧
    ("old" : String) ≠ "new" := by
  refine ⟨rfl, rfl, by decide⟩

/-- C2 (amended): for every symlink entry, *provided the destination is not
a dangling symlink with a different target*, after the copy step the
destination link's target equals the source link's target; a destination
symlink that already has the same target produces zero filesystem mutation;
a resolvable destination symlink with a different target produces exactly
one remove followed by one recreate. -/
theorem c2_symlink_replication (target : String) (resolve : String → TargetKind)
    (st : DestState)
    (h : ¬ ∃ t, st = .symlinkTo t ∧ resolve t = .missing ∧ t ≠ target) :
    readlinkOf (copy_file_symlink target resolve st).2.1 = some target ∧
    (st = .symlinkTo target →
      (copy_file_symlink target resolve st).1 = [] ∧
      (copy_file_symlink target resolve st).2.1 = st) ∧
    (∀ t, st = .symlinkTo t → t ≠ target →
      (copy_file_symlink target resolve st).1 = [.unlinkA, .symlinkA target]) := by
  cases st with
  | absent =>
      refine ⟨rfl, ?_, ?_⟩
      · intro he; cases he
      · intro t he; cases he
  | regular =>
      refine ⟨rfl, ?_, ?_⟩
      · intro he; cases he
      · intro t he; cases he
  | directory =>
      refine ⟨rfl, ?_, ?_⟩
      · intro he; cases he
      · intro t he; cases he
  | symlinkTo t =>
      by_cases hm : resolve t = .missing
      · have ht : t = target := by
          by_contra hne
          exact h ⟨t, rfl, hm, hne⟩
        subst ht
        have hex : destExists resolve (.symlinkTo t) = false := by
          simp [destExists, hm]
        refine ⟨?_, ?_, ?_⟩
        · simp [copy_file_symlink, hex, destLExists, readlinkOf]
        · intro _
          constructor <;> simp [copy_file_symlink, hex, destLExists]
        · intro t2 he hne
          injection he with he2
          exact absurd he2.symm hne
      · have hex : destExists resolve (.symlinkTo t) = true := by
          simp [destExists, hm]
        by_cases hsame : t = target
        · subst hsame
          refine ⟨?_, ?_, ?_⟩
          · simp [copy_file_symlink, hex, destIsSymlink, readlinkOf]
          · intro _
            constructor <;> simp [copy_file_symlink, hex, destIsSymlink, readlinkOf]
          · intro t2 he hne
            injection he with he2
            exact absurd he2.symm hne
        · have hres : copy_file_symlink target resolve (.symlinkTo t) =
              ([.unlinkA, .symlinkA target], .symlinkTo target,
                [.status ("Symlink created: -> " ++ target)]) := by
            simp [copy_file_symlink, hex, destIsSymlink, readlinkOf, hsame]
          refine ⟨?_, ?_, ?_⟩
          · rw [hres]; rfl
          · intro he
            injection he with he2
            exact absurd he2 hsame
          · intro t2 he hne
            rw [hres]

/-- C2 witness: a resolvable destination symlink `a` replaced by source
target `b` — one unlink, one recreate, final target `b`. -/
theorem c2_symlink_replication_witness :
    readlinkOf (copy_file_symlink "b" (fun _ => .fileK) (.symlinkTo "a")).2.1 = some "b" ∧
    (copy_file_symlink "b" (fun _ => .fileK) (.symlinkTo "a")).1 =
      [.unlinkA, .symlinkA "b"] := by
  have h := c2_symlink_replication "b" (fun _ => .fileK) (.symlinkTo "a")
    (by rintro ⟨t, ht, hr, hn⟩; exact absurd hr (by simp))
  exact ⟨h.1, h.2.2 "a" rfl (by decide)⟩

/-! ## C1 — the missing-destination guard -/

/-- C1: the guard `if not dest_root:` of line 176 tests a `pathlib.Path`
object, which is always truthy (`Path('')` is `Path('.')`), so a run whose
config has an empty destination and no override does *not* abort: it emits
scan events, creates copy tasks (into the current directory), prunes, and
never emits the `No destination set.` status. -/
theorem c1_dead_destination_guard :
    (sync cfgNoDest none wNoDest).err = none ∧
    Event.scanStarted ∈ (sync cfgNoDest none wNoDest).events ∧
    (sync cfgNoDest none wNoDest).tasks = [⟨"/s/a", "a", "s"⟩] ∧
    Event.status "Deleted: ./s/gone" ∈ (sync cfgNoDest none wNoDest).events ∧
    Event.status "No destination set." ∉ (sync cfgNoDest none wNoDest).events := by
  decide

/-! ## C3 — counterexample: a failing file deletion aborts pruning -/

/-- C3 counterexample: a stale file whose deletion raises a
non-`FileNotFoundError` exception makes the exception escape the prune
loop (only `FileNotFoundError` is caught there, line 247, and no warning is
logged), so `_sync` errors out and the second stale file is never
processed. -/
theorem c3_counterexample_file_delete_abort :
    (sync cfgDest none wDeleteFail).err = some "file deletion failed during pruning" ∧
    Event.status "Deleted: /d/s/y" ∉ (sync cfgDest none wDeleteFail).events := by
  decide

/-! ## C5 — counterexample: progress above 100 and a decreasing tail -/

/-- C5 counterexample: file `b` is unstatable at scan time (adds nothing to
`total_bytes`, so `total_bytes = 1`) but statable with 50 bytes at
completion time, so the first emitted percent is `50 * 100 / 1 = 5000`:
out of the 0..100 range, and the sequence `[5000, 5100, 100]` ends with a
decrease. -/
theorem c5_counterexample_progress :
    progressValues (sync cfgDest none wShiftStat).events = [5000, 5100, 100] ∧
    ¬ (5000 : Nat) ≤ 100 ∧
    ¬ List.Chain' (· ≤ ·) (progressValues (sync cfgDest none wShiftStat).events) := by
  refine ⟨by decide, by decide, ?_⟩
  intro hch
  rw [(by decide : progressValues (sync cfgDest none wShiftStat).events = [5000, 5100, 100])] at hch
  exact absurd (List.chain'_cons.mp (List.chain'_cons.mp hch).2).1 (by decide)

/-! ## C7 — counterexample: a symlink to a directory is not scanned -/

/-- C7 counterexample: the walk visits the symlink `L` (whose target is a
directory) as a child of the root, it is not excluded, and the scan
succeeds — yet the manifest is empty: `os.walk` classified `L` into `dirs`
and the scan loop only reads `files`. -/
theorem c7_counterexample_symlinked_dir :
    Visits "/s" treeSymlinkDir "/s/L" (.symlink "T" true (.ok 0)) ∧
    is_excluded [] fmFalse "/s/L" = false ∧
    scanEntries [] fmFalse (pathName "/s") (walkDir "/s" "" treeSymlinkDir) =
      .ok ([], 0) ∧
    ∀ t ∈ ([] : List SyncTask), t.src ≠ "/s/L" := by
    refine ⟨?_, rfl, rfl, by simp⟩
    exact Visits.here (List.mem_singleton.mpr rfl)

/-! ## C8 — counterexample: a stat failure that aborts the scan -/

/-- C8 counterexample: a source file whose `stat` raises a
non-`FileNotFoundError` exception aborts the whole scan — `_sync` errors
out, `scanning_finished` is never emitted and the manifest is discarded —
contradicting "a size failure never aborts the scan". -/
theorem c8_counterexample_stat_abort :
    (sync cfgDest none wStatAbort).err = some "stat failed during scan" ∧
    Event.scanFinished ∉ (sync cfgDest none wStatAbort).events ∧
    (sync cfgDest none wStatAbort).manifest = [] := by
  decide

/-! ## Scan characterization lemmas -/

/-- C8 (amended): when no non-excluded entry's stat raises an error other
than `FileNotFoundError`, the scan succeeds and produces exactly the
non-excluded entries as manifest (so an entry whose stat raised
`FileNotFoundError` still appears, and is still copied) with a total that
counts only the successful stats (a `FileNotFoundError` contributes
nothing).  Any other stat failure aborts the scan, as the counterexample
shows. -/
theorem c8_scan_size_failure (excludes : List String) (fm : String → String → Bool)
    (base : String) (es : List RawEntry)
    (h : ∀ e ∈ es, is_excluded excludes fm e.abs = false → statOf e.node ≠ .otherErr) :
    scanEntries excludes fm base es =
      .ok ((es.filter (fun e => ! is_excluded excludes fm e.abs)).map (toTask base),
        ((es.filter (fun e => ! is_excluded excludes fm e.abs)).map
          (fun e => statSize (statOf e.node))).sum) := by
  induction es with
  | nil => rfl
  | cons e rest ih =>
      have hrest : ∀ e2 ∈ rest, is_excluded excludes fm e2.abs = false →
          statOf e2.node ≠ .otherErr :=
        fun e2 he2 => h e2 (List.mem_cons_of_mem _ he2)
      rw [scanEntries]
      by_cases hex : is_excluded excludes fm e.abs
      · rw [if_pos hex, ih hrest]
        simp [List.filter_cons, hex]
      · rw [if_neg hex]
        cases hst : statOf e.node with
        | ok n =>
            rw [ih hrest]
            simp [List.filter_cons, hex, toTask, statSize, hst, Except.map]
        | notFound =>
            rw [ih hrest]
            simp [List.filter_cons, hex, toTask, statSize, hst, Except.map]
        | otherErr =>
            exact absurd hst (h e (List.mem_cons_self e rest) (by simpa using hex))

/-- C8 witness: an entry whose scan stat raised `FileNotFoundError` is kept
in the manifest and contributes nothing to the total. -/
theorem c8_scan_size_failure_witness :
    scanEntries [] fmFalse "s"
      [⟨"/s/a", "a", .fileNode .notFound⟩, ⟨"/s/b", "b", .fileNode (.ok 7)⟩] =
      .ok ([⟨"/s/a", "a", "s"⟩, ⟨"/s/b", "b", "s"⟩], 7) := by
  rw [c8_scan_size_failure [] fmFalse "s" _ ?_]
  · rfl
  · intro e he hex
    rcases List.mem_cons.mp he with h1 | h1
    · subst h1; decide
    · rcases List.mem_cons.mp h1 with h2 | h2
      · subst h2; decide
      · cases h2

/-- Either the scan of one source's entries errors out, or it returns
exactly the non-excluded entries and the sum of their successful stat
sizes. -/
theorem scanEntries_shape (excludes : List String) (fm : String → String → Bool)
    (base : String) (es : List RawEntry) :
    scanEntries excludes fm base es = .error () ∨
    scanEntries excludes fm base es =
      .ok ((es.filter (fun e => ! is_excluded excludes fm e.abs)).map (toTask base),
        ((es.filter (fun e => ! is_excluded excludes fm e.abs)).map
          (fun e => statSize (statOf e.node))).sum) := by
  induction es with
  | nil => exact Or.inr rfl
  | cons e rest ih =>
      rw [scanEntries]
      by_cases hex : is_excluded excludes fm e.abs
      · rw [if_pos hex]
        rcases ih with h | h
        · exact Or.inl h
        · rw [h]
          exact Or.inr (by simp [List.filter_cons, hex])
      · rw [if_neg hex]
        cases hst : statOf e.node with
        | ok n =>
            rcases ih with h | h
            · rw [h]; exact Or.inl rfl
            · rw [h]
              exact Or.inr
                (by simp [List.filter_cons, hex, toTask, statSize, hst, Except.map])
        | notFound =>
            rcases ih with h | h
            · rw [h]; exact Or.inl rfl
            · rw [h]
              exact Or.inr
                (by simp [List.filter_cons, hex, toTask, statSize, hst, Except.map])
        | otherErr => exact Or.inl rfl

/-- Every task of a successful scan over all sources has a non-excluded
source path. -/
theorem scanAll_ok_not_excluded (w : World) (excludes : List String) :
    ∀ (ss : List String) (ms : List SyncTask) (tot : Nat),
      (scanAll w excludes ss).2 = .ok (ms, tot) →
      ∀ t ∈ ms, is_excluded excludes w.fm t.src = false := by
  intro ss
  induction ss with
  | nil =>
      intro ms tot hok t ht
      rw [scanAll] at hok
      simp only [Except.ok.injEq, Prod.mk.injEq] at hok
      rw [← hok.1] at ht
      cases ht
  | cons src rest ih =>
      intro ms tot hok t ht
      rw [scanAll] at hok
      cases htree : w.fsTree src with
      | none =>
          simp only [htree] at hok
          exact ih ms tot hok t ht
      | some tree =>
          simp only [htree] at hok
          rcases scanEntries_shape excludes w.fm (pathName src) (walkDir src "" tree)
            with hsh | hsh
          · simp only [hsh] at hok
            cases hok
          · simp only [hsh] at hok
            cases hrest : (scanAll w excludes rest).2 with
            | error e =>
                rw [hrest] at hok
                simp only [Except.map] at hok
                cases hok
            | ok p =>
                rw [hrest] at hok
                simp only [Except.map, Except.ok.injEq, Prod.mk.injEq] at hok
                rw [← hok.1] at ht
                rcases List.mem_append.mp ht with hin | hin
                · obtain ⟨e, hef, hte⟩ := List.mem_map.mp hin
                  have hexcl := (List.mem_filter.mp hef).2
                  rw [← hte]
                  simpa using hexcl
                · exact ih p.1 p.2 (by rw [hrest]) t hin

/-! ## C7 — walk completeness -/

/-- A non-directory-classified child of a walked directory appears among its
`files` entries. -/
theorem walkFiles_mem (abs rel name : String) (node : FSNode)
    (entries : List (String × FSNode)) (hmem : (name, node) ∈ entries)
    (hnd : isDirEntry node = false) :
    (⟨joinPath abs name, joinRel rel name, node⟩ : RawEntry) ∈
      walkFiles abs rel entries := by
  induction entries with
  | nil => cases hmem
  | cons hd rest ih =>
      rw [walkFiles]
      rcases List.mem_cons.mp hmem with heq | hin
      · obtain ⟨h1, h2⟩ := Prod.mk.injEq .. ▸ heq.symm
        subst h1; subst h2
        rw [hnd]
        exact List.mem_append_left _ (List.mem_singleton.mpr rfl)
      · exact List.mem_append_right _ (ih hin)

/-- Anything walked under a genuine subdirectory appears in the recursive
descent of its parent. -/
theorem walkSubdirs_mem (abs rel name : String) (d : FSNode)
    (entries : List (String × FSNode)) (x : RawEntry)
    (hmem : (name, d) ∈ entries) (hrd : isRealDir d = true)
    (hx : x ∈ walkDir (joinPath abs name) (joinRel rel name) d) :
    x ∈ walkSubdirs abs rel entries := by
  induction entries with
  | nil => cases hmem
  | cons hd rest ih =>
      rw [walkSubdirs]
      rcases List.mem_cons.mp hmem with heq | hin
      · obtain ⟨h1, h2⟩ := Prod.mk.injEq .. ▸ heq.symm
        subst h1; subst h2
        rw [hrd]
        exact List.mem_append_left _ hx
      · exact List.mem_append_right _ (ih hin)

/-- Every entry the specification's depth-first walk visits that `os.walk`
classifies as a file (a regular file, or a symlink whose target is not a
directory) is yielded by `walkDir`, with some relative path. -/
theorem visits_walkDir {root : String} {tree : FSNode} {p : String} {n : FSNode}
    (hv : Visits root tree p n) (hnd : isDirEntry n = false) :
    ∀ rel, ∃ r, (⟨p, r, n⟩ : RawEntry) ∈ walkDir root rel tree := by
  induction hv with
  | @here path entries name node hmem =>
      intro rel
      refine ⟨joinRel rel name, ?_⟩
      rw [walkDir]
      exact List.mem_append_left _ (walkFiles_mem _ _ _ _ _ hmem hnd)
  | @deeper path entries name sub p2 n2 hmem hsub ih =>
      intro rel
      obtain ⟨r, hr⟩ := ih hnd (joinRel rel name)
      refine ⟨r, ?_⟩
      rw [walkDir]
      exact List.mem_append_right _ (walkSubdirs_mem _ _ _ _ _ _ hmem rfl hr)

/-- C7 (amended): for every existing source root, the manifest of a
successful scan contains every regular file and every symlink *whose target
is not a directory* reachable by the depth-first walk that does not follow
symlinked directories, minus excluded entries.  A symlink whose target is a
directory is classified into `dirs` by `os.walk`, is not descended into,
and is **not** a manifest entry (see the counterexample). -/
theorem c7_scan_completeness (excludes : List String) (fm : String → String → Bool)
    (src : String) (tree : FSNode) (p : String) (n : FSNode)
    (ms : List SyncTask) (tot : Nat)
    (hscan : scanEntries excludes fm (pathName src) (walkDir src "" tree) =
      .ok (ms, tot))
    (hv : Visits src tree p n) (hnd : isDirEntry n = false)
    (hex : is_excluded excludes fm p = false) :
    p ∈ ms.map SyncTask.src := by
  obtain ⟨r, hr⟩ := visits_walkDir hv hnd ""
  rcases scanEntries_shape excludes fm (pathName src) (walkDir src "" tree)
    with hsh | hsh
  · rw [hscan] at hsh
    cases hsh
  · rw [hscan] at hsh
    simp only [Except.ok.injEq, Prod.mk.injEq] at hsh
    rw [hsh.1]
    refine List.mem_map.mpr ⟨toTask (pathName src) ⟨p, r, n⟩, ?_, rfl⟩
    exact List.mem_map.mpr ⟨⟨p, r, n⟩, List.mem_filter.mpr ⟨hr, by simp [hex]⟩, rfl⟩

/-- C7 witness: a regular file two levels deep is visited by the walk and
lands in the manifest. -/
theorem c7_scan_completeness_witness :
    "/s/sub/f" ∈
      (([⟨"/s/sub/f", "sub/f", "s"⟩] : List SyncTask)).map SyncTask.src := by
  have hv : Visits "/s" (.dir [("sub", .dir [("f", .fileNode (.ok 4))])])
      "/s/sub/f" (.fileNode (.ok 4)) :=
    Visits.deeper (List.mem_singleton.mpr rfl)
      (Visits.here (List.mem_singleton.mpr rfl))
  exact c7_scan_completeness [] fmFalse "/s"
    (.dir [("sub", .dir [("f", .fileNode (.ok 4))])]) "/s/sub/f" (.fileNode (.ok 4))
    [⟨"/s/sub/f", "sub/f", "s"⟩] 4 rfl hv rfl rfl

/-! ## C3 — failure containment -/

/-- The scan never reads the injected copy-failure oracle. -/
theorem scanAll_copyFail (w : World) (g : String → Option String)
    (excludes : List String) : ∀ ss : List String,
    scanAll { w with copyFail := g } excludes ss = scanAll w excludes ss := by
  intro ss
  induction ss with
  | nil => rfl
  | cons src rest ih =>
      have hfs : ({ w with copyFail := g } : World).fsTree = w.fsTree := rfl
      have hfm : ({ w with copyFail := g } : World).fm = w.fm := rfl
      conv_lhs => rw [scanAll]
      conv_rhs => rw [scanAll]
      rw [hfs, hfm, ih]

/-- The completion loop's final `copied_bytes` and error outcome do not
depend on the injected copy failures: every failure raised inside
`_copy_file`'s `try` blocks was caught there, so `future.result()` only
re-raises the stat of line 217. -/
theorem completionGo_copyFail (cf cf2 : String → Option String)
    (ds : String → StatRes) (tasks : List SyncTask) (total : Nat) :
    ∀ (order : List Nat) (copied : Nat),
      (completionGo cf ds tasks total order copied).2 =
      (completionGo cf2 ds tasks total order copied).2 := by
  intro order
  induction order with
  | nil => intro copied; rfl
  | cons j rest ih =>
      intro copied
      rw [completionGo, completionGo]
      cases tasks[j]? with
      | none => exact ih copied
      | some t =>
          cases hds : ds t.src with
          | ok n => simp only [hds]; exact ih (copied + n)
          | notFound => simp only [hds]; exact ih copied
          | otherErr => simp only [hds]

/-- The prune phase never reads the injected copy-failure oracle. -/
theorem pruneAll_copyFail (w : World) (g : String → Option String)
    (destRoot : String) : ∀ ss : List String,
    pruneAll { w with copyFail := g } destRoot ss = pruneAll w destRoot ss := by
  intro ss
  induction ss with
  | nil => rfl
  | cons src rest ih =>
      have hroot : ({ w with copyFail := g } : World).rootExists = w.rootExists := rfl
      have hitems : ({ w with copyFail := g } : World).pruneItems = w.pruneItems := rfl
      conv_lhs => rw [pruneAll]
      conv_rhs => rw [pruneAll]
      rw [hroot, hitems, ih]

/-- The whole run's error outcome is unchanged by injected copy failures. -/
theorem sync_err_copyFail (cfg : BackupConfig) (ov : Option String) (w : World)
    (g : String → Option String) :
    (sync cfg ov { w with copyFail := g }).err = (sync cfg ov w).err := by
  rw [sync, sync]
  rw [if_neg (by simp [pathTruthy]), if_neg (by simp [pathTruthy])]
  rw [scanAll_copyFail,
    show ({ w with copyFail := g } : World).stopAt = w.stopAt from rfl,
    show ({ w with copyFail := g } : World).doneStat = w.doneStat from rfl,
    show ({ w with copyFail := g } : World).order = w.order from rfl,
    show ({ w with copyFail := g } : World).copyFail = g from rfl]
  cases (scanAll w cfg.excludes cfg.sources).2 with
  | error e => rfl
  | ok p =>
      cases p with
      | mk ms tot =>
          simp only []
          rw [completionGo_copyFail g w.copyFail w.doneStat
            (dispatchGo w.stopAt 0 ms).1 tot]
          cases (completionGo w.copyFail w.doneStat
              (dispatchGo w.stopAt 0 ms).1 tot w.order 0).2.2 with
          | some e => rfl
          | none =>
              rw [pruneAll_copyFail]
              cases (pruneAll w (pathOf (pyOr ov cfg.destination)) cfg.sources).2 with
              | some e => rfl
              | none => rfl

/-- C3 (amended): per-entry I/O failures inside `_copy_file` (copy, symlink
creation, metadata copy) are caught there and never change the run's
outcome; in the prune phase, a *directory* deletion failure is logged and
skipped, but a *file* deletion tolerates only `FileNotFoundError` (and
silently): any other file-deletion failure propagates out of the prune
phase and aborts the remaining pruning work. -/
theorem c3_failure_containment :
    (∀ items : List PruneItem, (pruneGo items).2 = none ↔
      ∀ it ∈ items, it.origExists = false → it.isDir = false →
        it.delRes ≠ .otherFail) ∧
    (∀ (cfg : BackupConfig) (ov : Option String) (w : World)
      (g : String → Option String),
      (sync cfg ov { w with copyFail := g }).err = (sync cfg ov w).err) := by
  constructor
  · intro items
    induction items with
    | nil => simp [pruneGo]
    | cons it rest ih =>
        rw [pruneGo]
        by_cases horig : it.origExists
        · rw [if_pos horig]
          rw [ih]
          constructor
          · intro hall it2 hit2 ho2 hd2
            rcases List.mem_cons.mp hit2 with he | he
            · subst he; exact absurd ho2 (by simp [horig])
            · exact hall it2 he ho2 hd2
          · intro hall it2 hit2
            exact hall it2 (List.mem_cons_of_mem _ hit2)
        · rw [if_neg horig]
          by_cases hdir : it.isDir
          · rw [if_pos hdir]
            cases hdel : it.delRes with
            | ok =>
                simp only []
                rw [ih]
                constructor
                · intro hall it2 hit2 ho2 hd2
                  rcases List.mem_cons.mp hit2 with he | he
                  · subst he; exact absurd hd2 (by simp [hdir])
                  · exact hall it2 he ho2 hd2
                · intro hall it2 hit2
                  exact hall it2 (List.mem_cons_of_mem _ hit2)
            | notFound =>
                simp only []
                rw [ih]
                constructor
                · intro hall it2 hit2 ho2 hd2
                  rcases List.mem_cons.mp hit2 with he | he
                  · subst he; exact absurd hd2 (by simp [hdir])
                  · exact hall it2 he ho2 hd2
                · intro hall it2 hit2
                  exact hall it2 (List.mem_cons_of_mem _ hit2)
            | otherFail =>
                simp only []
                rw [ih]
                constructor
                · intro hall it2 hit2 ho2 hd2
                  rcases List.mem_cons.mp hit2 with he | he
                  · subst he; exact absurd hd2 (by simp [hdir])
                  · exact hall it2 he ho2 hd2
                · intro hall it2 hit2
                  exact hall it2 (List.mem_cons_of_mem _ hit2)
          · rw [if_neg hdir]
            cases hdel : it.delRes with
            | ok =>
                simp only []
                rw [ih]
                constructor
                · intro hall it2 hit2 ho2 hd2
                  rcases List.mem_cons.mp hit2 with he | he
                  · subst he; simp [hdel]
                  · exact hall it2 he ho2 hd2
                · intro hall it2 hit2
                  exact hall it2 (List.mem_cons_of_mem _ hit2)
            | notFound =>
                rw [ih]
                constructor
                · intro hall it2 hit2 ho2 hd2
                  rcases List.mem_cons.mp hit2 with he | he
                  · subst he; simp [hdel]
                  · exact hall it2 he ho2 hd2
                · intro hall it2 hit2
                  exact hall it2 (List.mem_cons_of_mem _ hit2)
            | otherFail =>
                simp only []
                constructor
                · intro hfalse; cases hfalse
                · intro hall
                  exact absurd hdel
                    (hall it (List.mem_cons_self it rest) (by simpa using horig)
                      (by simpa using hdir))
  · exact sync_err_copyFail

/-- C3 witness: a successfully deletable stale file yields a clean prune,
and injecting a copy failure into the aborting run leaves its error
unchanged. -/
theorem c3_failure_containment_witness :
    (pruneGo [⟨"/d/s/ok", false, false, .ok⟩]).2 = none ∧
    (sync cfgDest none { wDeleteFail with copyFail := fun _ => some "boom" }).err =
      (sync cfgDest none wDeleteFail).err := by
  refine ⟨(c3_failure_containment.1 _).mpr ?_,
    c3_failure_containment.2 cfgDest none wDeleteFail (fun _ => some "boom")⟩
  intro it hit ho hd
  rcases List.mem_singleton.mp hit with he
  subst he
  decide

/-! ## Dispatch lemmas -/

/-- The dispatched tasks are a prefix of the manifest. -/
theorem dispatchGo_take (stopAt : Nat → Bool) :
    ∀ (ms : List SyncTask) (i : Nat),
      (dispatchGo stopAt i ms).1 = ms.take (dispatchGo stopAt i ms).1.length := by
  intro ms
  induction ms with
  | nil => intro i; rfl
  | cons t rest ih =>
      intro i
      rw [dispatchGo]
      by_cases hstop : stopAt i
      · rw [if_pos hstop]; rfl
      · rw [if_neg hstop]
        simp only [List.length_cons, List.take_succ_cons]
        rw [← ih (i + 1)]

/-- The submission loop breaks at the first true read of the stop flag, so
no task is dispatched at or after an index where the flag is set. -/
theorem dispatchGo_stop_le (stopAt : Nat → Bool) :
    ∀ (ms : List SyncTask) (i jj : Nat), i ≤ jj → stopAt jj = true →
      i + (dispatchGo stopAt i ms).1.length ≤ jj := by
  intro ms
  induction ms with
  | nil => intro i jj hij _; simpa [dispatchGo] using hij
  | cons t rest ih =>
      intro i jj hij hjj
      rw [dispatchGo]
      by_cases hstop : stopAt i
      · rw [if_pos hstop]; simpa using hij
      · rw [if_neg hstop]
        have hne : i ≠ jj := by
          intro he; rw [he] at hstop; exact hstop hjj
        have := ih (i + 1) jj (by omega) hjj
        simp only [List.length_cons]
        omega

/-- Every dispatched task is a manifest entry. -/
theorem dispatchGo_subset (stopAt : Nat → Bool) (ms : List SyncTask) (i : Nat)
    (t : SyncTask) (ht : t ∈ (dispatchGo stopAt i ms).1) : t ∈ ms := by
  rw [dispatchGo_take stopAt ms i] at ht
  exact List.take_subset _ _ ht

/-! ## C9 — excluded paths are never copied -/

/-- Every dispatched task of any run has a non-excluded source path. -/
theorem sync_tasks_not_excluded (cfg : BackupConfig) (ov : Option String)
    (w : World) (t : SyncTask) (ht : t ∈ (sync cfg ov w).tasks) :
    is_excluded cfg.excludes w.fm t.src = false := by
  rw [sync] at ht
  rw [if_neg (by simp [pathTruthy])] at ht
  rcases hsc : (scanAll w cfg.excludes cfg.sources).2 with e | ⟨ms, tot⟩
  · rw [hsc] at ht
    exact absurd ht (by intro hin; cases hin)
  · rw [hsc] at ht
    dsimp only [] at ht
    refine scanAll_ok_not_excluded w cfg.excludes cfg.sources ms tot hsc t ?_
    revert ht
    cases (completionGo w.copyFail w.doneStat (dispatchGo w.stopAt 0 ms).1
        tot w.order 0).2.2 with
    | some e =>
        intro ht
        exact dispatchGo_subset w.stopAt ms 0 t ht
    | none =>
        cases (pruneAll w (pathOf (pyOr ov cfg.destination)) cfg.sources).2 with
        | some e =>
            intro ht
            exact dispatchGo_subset w.stopAt ms 0 t ht
        | none =>
            intro ht
            exact dispatchGo_subset w.stopAt ms 0 t ht

/-- C9: for every path that glob-matches at least one exclude pattern of the
config, no copy task is ever created for it, in any run. -/
theorem c9_excluded_never_copied (cfg : BackupConfig) (ov : Option String)
    (w : World) (p : String) (hex : is_excluded cfg.excludes w.fm p = true) :
    p ∉ (sync cfg ov w).tasks.map SyncTask.src := by
  intro hp
  obtain ⟨t, ht, hsrc⟩ := List.mem_map.mp hp
  have := sync_tasks_not_excluded cfg ov w t ht
  rw [hsrc, hex] at this
  cases this

/-- C9 witness: the excluded file of `cfgExcl` gets no copy task in the
`wExcl` run (which does copy the non-excluded file). -/
theorem c9_excluded_never_copied_witness :
    "/s/tmp" ∉ (sync cfgExcl none wExcl).tasks.map SyncTask.src := by
  exact c9_excluded_never_copied cfgExcl none wExcl "/s/tmp" (by decide)

/-! ## Dissection of an error-free run -/

/-- Inversion of an error-free run: the scan succeeded and neither the
completion loop nor the prune phase raised. -/
theorem sync_ok_inv (cfg : BackupConfig) (ov : Option String) (w : World)
    (herr : (sync cfg ov w).err = none) :
    ∃ ms tot,
      (scanAll w cfg.excludes cfg.sources).2 = .ok (ms, tot) ∧
      (completionGo w.copyFail w.doneStat (dispatchGo w.stopAt 0 ms).1
        tot w.order 0).2.2 = none ∧
      (pruneAll w (pathOf (pyOr ov cfg.destination)) cfg.sources).2 = none := by
  revert herr
  rw [sync, if_neg (by simp [pathTruthy])]
  rcases hsc : (scanAll w cfg.excludes cfg.sources).2 with e | ⟨ms, tot⟩
  · intro herr
    exact Option.noConfusion herr
  · dsimp only []
    cases hcc : (completionGo w.copyFail w.doneStat (dispatchGo w.stopAt 0 ms).1
        tot w.order 0).2.2 with
    | some e =>
        intro herr
        exact Option.noConfusion herr
    | none =>
        cases hpp : (pruneAll w (pathOf (pyOr ov cfg.destination)) cfg.sources).2 with
        | some e =>
            intro herr
            exact Option.noConfusion herr
        | none =>
            intro _
            exact ⟨ms, tot, rfl, hcc, rfl⟩

/-- The run record of an error-free run, explicitly. -/
theorem sync_eq_of_ok (cfg : BackupConfig) (ov : Option String) (w : World)
    (ms : List SyncTask) (tot : Nat)
    (hsc : (scanAll w cfg.excludes cfg.sources).2 = .ok (ms, tot))
    (hc : (completionGo w.copyFail w.doneStat (dispatchGo w.stopAt 0 ms).1
      tot w.order 0).2.2 = none)
    (hp : (pruneAll w (pathOf (pyOr ov cfg.destination)) cfg.sources).2 = none) :
    sync cfg ov w =
      { events := Event.scanStarted :: (scanAll w cfg.excludes cfg.sources).1
          ++ [Event.scanFinished] ++ (dispatchGo w.stopAt 0 ms).2
          ++ (completionGo w.copyFail w.doneStat (dispatchGo w.stopAt 0 ms).1
              tot w.order 0).1
          ++ (pruneAll w (pathOf (pyOr ov cfg.destination)) cfg.sources).1
          ++ [Event.status "Sync completed", Event.progress 100],
        manifest := ms, total := tot,
        tasks := (dispatchGo w.stopAt 0 ms).1, err := none } := by
  rw [sync, if_neg (by simp [pathTruthy]), hsc]
  dsimp only []
  rw [hc]
  dsimp only []
  rw [hp]

/-- An error-free run decomposes into: a successful scan, a completion loop
with no escaping stat error, a prune phase with no escaping deletion error,
and the full concatenated event list ending in `Sync completed` and
`progress 100`. -/
theorem sync_ok_shape (cfg : BackupConfig) (ov : Option String) (w : World)
    (herr : (sync cfg ov w).err = none) :
    ∃ ms tot,
      (scanAll w cfg.excludes cfg.sources).2 = .ok (ms, tot) ∧
      (sync cfg ov w).manifest = ms ∧
      (sync cfg ov w).total = tot ∧
      (sync cfg ov w).tasks = (dispatchGo w.stopAt 0 ms).1 ∧
      (completionGo w.copyFail w.doneStat (dispatchGo w.stopAt 0 ms).1
        tot w.order 0).2.2 = none ∧
      (pruneAll w (pathOf (pyOr ov cfg.destination)) cfg.sources).2 = none ∧
      (sync cfg ov w).events =
        Event.scanStarted :: (scanAll w cfg.excludes cfg.sources).1
          ++ [Event.scanFinished] ++ (dispatchGo w.stopAt 0 ms).2
          ++ (completionGo w.copyFail w.doneStat (dispatchGo w.stopAt 0 ms).1
              tot w.order 0).1
          ++ (pruneAll w (pathOf (pyOr ov cfg.destination)) cfg.sources).1
          ++ [Event.status "Sync completed", Event.progress 100] := by
  obtain ⟨ms, tot, hsc, hc, hp⟩ := sync_ok_inv cfg ov w herr
  have heq := sync_eq_of_ok cfg ov w ms tot hsc hc hp
  exact ⟨ms, tot, hsc, by rw [heq], by rw [heq], by rw [heq], hc, hp, by rw [heq]⟩

/-! ## Completion and prune membership lemmas -/

/-- When the completion loop finishes without an escaping stat error, the
copy status (or warning) of every processed task appears in its events. -/
theorem completionGo_mem (cf : String → Option String) (ds : String → StatRes)
    (tasks : List SyncTask) (total : Nat) :
    ∀ (order : List Nat) (copied : Nat),
      (completionGo cf ds tasks total order copied).2.2 = none →
      ∀ j ∈ order, ∀ t, tasks[j]? = some t →
        copyEventOf cf t ∈ (completionGo cf ds tasks total order copied).1 := by
  intro order
  induction order with
  | nil =>
      intro copied _ j hj
      cases hj
  | cons j0 rest ih =>
      intro copied hok j hj t hjt
      rw [completionGo] at hok ⊢
      rcases hq : tasks[j0]? with _ | t0
      · rw [hq] at hok
        rcases List.mem_cons.mp hj with he | he
        · subst he
          rw [hjt] at hq
          cases hq
        · exact ih copied hok j he t hjt
      · rw [hq] at hok
        dsimp only [] at hok ⊢
        rcases hds : ds t0.src with n | _ | _
        · rw [hds] at hok
          dsimp only [] at hok ⊢
          rcases List.mem_cons.mp hj with he | he
          · subst he
            rw [hq] at hjt
            obtain rfl := Option.some_inj.mp hjt
            exact List.mem_cons_self _ _
          · exact List.mem_cons_of_mem _
              (List.mem_cons_of_mem _ (ih (copied + n) hok j he t hjt))
        · rw [hds] at hok
          dsimp only [] at hok ⊢
          rcases List.mem_cons.mp hj with he | he
          · subst he
            rw [hq] at hjt
            obtain rfl := Option.some_inj.mp hjt
            exact List.mem_cons_self _ _
          · exact List.mem_cons_of_mem _ (ih copied hok j he t hjt)
        · rw [hds] at hok
          dsimp only [] at hok
          cases hok

/-- When one destination walk's pruning finishes without an escaping error,
every successfully deleted stale candidate has its deletion status among
the walk's events. -/
theorem pruneGo_mem : ∀ (items : List PruneItem), (pruneGo items).2 = none →
    ∀ it ∈ items, it.origExists = false → it.delRes = .ok →
    eventOfPrune it ∈ (pruneGo items).1 := by
  intro items
  induction items with
  | nil =>
      intro _ it hit
      cases hit
  | cons it0 rest ih =>
      intro hok it hit ho hd
      rw [pruneGo] at hok ⊢
      by_cases horig : it0.origExists
      · rw [if_pos horig] at hok ⊢
        rcases List.mem_cons.mp hit with he | he
        · subst he
          rw [ho] at horig
          cases horig
        · exact ih hok it he ho hd
      · rw [if_neg horig] at hok ⊢
        by_cases hdir : it0.isDir
        · rw [if_pos hdir] at hok ⊢
          rcases hdel : it0.delRes with _ | _ | _
          · rw [hdel] at hok
            dsimp only [] at hok
            rcases List.mem_cons.mp hit with he | he
            · subst he
              exact List.mem_cons.mpr (Or.inl (by simp [eventOfPrune, hdir]))
            · exact List.mem_cons_of_mem _ (ih hok it he ho hd)
          · rw [hdel] at hok
            dsimp only [] at hok
            rcases List.mem_cons.mp hit with he | he
            · subst he
              rw [hd] at hdel
              cases hdel
            · exact List.mem_cons_of_mem _ (ih hok it he ho hd)
          · rw [hdel] at hok
            dsimp only [] at hok
            rcases List.mem_cons.mp hit with he | he
            · subst he
              rw [hd] at hdel
              cases hdel
            · exact List.mem_cons_of_mem _ (ih hok it he ho hd)
        · rw [if_neg hdir] at hok ⊢
          rcases hdel : it0.delRes with _ | _ | _
          · rw [hdel] at hok
            dsimp only [] at hok
            rcases List.mem_cons.mp hit with he | he
            · subst he
              have hdf : it.isDir = false := by simpa using hdir
              exact List.mem_cons.mpr (Or.inl (by simp [eventOfPrune, hdf]))
            · exact List.mem_cons_of_mem _ (ih hok it he ho hd)
          · rw [hdel] at hok
            rcases List.mem_cons.mp hit with he | he
            · subst he
              rw [hd] at hdel
              cases hdel
            · exact ih hok it he ho hd
          · rw [hdel] at hok
            dsimp only [] at hok
            cases hok

/-- Lifting `pruneGo_mem` across all source roots. -/
theorem pruneAll_mem (w : World) (destRoot : String) :
    ∀ (ss : List String), (pruneAll w destRoot ss).2 = none →
    ∀ src ∈ ss, w.rootExists (joinPath destRoot (pathName src)) = true →
    ∀ it ∈ w.pruneItems (joinPath destRoot (pathName src)),
      it.origExists = false → it.delRes = .ok →
      eventOfPrune it ∈ (pruneAll w destRoot ss).1 := by
  intro ss
  induction ss with
  | nil =>
      intro _ src hsrc
      cases hsrc
  | cons s0 rest ih =>
      intro hok src hsrc hre it hit ho hd
      rw [pruneAll] at hok ⊢
      by_cases hre0 : w.rootExists (joinPath destRoot (pathName s0))
      · rw [if_pos hre0] at hok ⊢
        rcases hpg : (pruneGo (w.pruneItems (joinPath destRoot (pathName s0)))).2
          with _ | e
        · rw [hpg] at hok
          dsimp only [] at hok
          rcases List.mem_cons.mp hsrc with he | he
          · subst he
            exact List.mem_append_left _ (pruneGo_mem _ hpg it hit ho hd)
          · exact List.mem_append_right _ (ih hok src he hre it hit ho hd)
        · rw [hpg] at hok
          dsimp only [] at hok
          cases hok
      · rw [if_neg hre0] at hok ⊢
        rcases List.mem_cons.mp hsrc with he | he
        · subst he
          exact absurd hre hre0
        · exact ih hok src he hre it hit ho hd

/-! ## C6 — cooperative cancellation -/

/-- C6: in a run that finishes without an unhandled error and whose
completion order covers every dispatched index (as `as_completed` does):
once the stop flag reads true at index `i`, no task at or after `i` is ever
dispatched; the dispatched tasks are a prefix of the manifest, in manifest
order; every already-dispatched task still runs to completion (its copy
status or warning is among the run's events); and the prune phase still
runs for every source root — every successfully deleted stale candidate of
every root's walk has its deletion status among the run's events,
regardless of the stop flag. -/
theorem c6_cancellation (cfg : BackupConfig) (ov : Option String) (w : World)
    (herr : (sync cfg ov w).err = none)
    (hord : ∀ j, j < (sync cfg ov w).tasks.length → j ∈ w.order) :
    (∀ i, w.stopAt i = true → (sync cfg ov w).tasks.length ≤ i) ∧
    (sync cfg ov w).tasks =
      (sync cfg ov w).manifest.take (sync cfg ov w).tasks.length ∧
    (∀ t ∈ (sync cfg ov w).tasks,
      copyEventOf w.copyFail t ∈ (sync cfg ov w).events) ∧
    (∀ src ∈ cfg.sources,
      w.rootExists (joinPath (pathOf (pyOr ov cfg.destination)) (pathName src)) =
        true →
      ∀ it ∈ w.pruneItems (joinPath (pathOf (pyOr ov cfg.destination))
          (pathName src)),
        it.origExists = false → it.delRes = .ok →
        eventOfPrune it ∈ (sync cfg ov w).events) := by
  obtain ⟨ms, tot, hscan, hman, htot, htasks, hcomp, hprune, hevents⟩ :=
    sync_ok_shape cfg ov w herr
  refine ⟨?_, ?_, ?_, ?_⟩
  · intro i hstop
    rw [htasks]
    have := dispatchGo_stop_le w.stopAt ms 0 i (Nat.zero_le i) hstop
    omega
  · rw [htasks, hman, ← htasks]
    rw [htasks]
    exact dispatchGo_take w.stopAt ms 0
  · intro t ht
    rw [htasks] at ht
    obtain ⟨j, hj, hget⟩ := List.mem_iff_getElem.mp ht
    have hjq : ((dispatchGo w.stopAt 0 ms).1)[j]? = some t := by
      rw [List.getElem?_eq_getElem hj, hget]
    have hjord : j ∈ w.order := hord j (by rw [htasks]; exact hj)
    have hmem := completionGo_mem w.copyFail w.doneStat (dispatchGo w.stopAt 0 ms).1
      tot w.order 0 hcomp j hjord t hjq
    rw [hevents]
    simp only [List.mem_cons, List.mem_append]
    tauto
  · intro src hsrc hre it hit ho hd
    have hmem := pruneAll_mem w (pathOf (pyOr ov cfg.destination)) cfg.sources
      hprune src hsrc hre it hit ho hd
    rw [hevents]
    simp only [List.mem_cons, List.mem_append]
    tauto

/-- C6 witness: in `wStopped` (flag set from index 1), only the first of two
manifest entries is dispatched, and the stale file still gets pruned. -/
theorem c6_cancellation_witness :
    (sync cfgDest none wStopped).tasks.length ≤ 1 ∧
    eventOfPrune ⟨"/d/s/stale", false, false, .ok⟩ ∈
      (sync cfgDest none wStopped).events := by
  have hord : ∀ j, j < (sync cfgDest none wStopped).tasks.length → j ∈ wStopped.order := by
    intro j hj
    have hlen : (sync cfgDest none wStopped).tasks.length = 1 := by decide
    rw [hlen] at hj
    have hz : j = 0 := by omega
    subst hz
    decide
  have h := c6_cancellation cfgDest none wStopped (by decide) hord
  exact ⟨h.1 1 (by decide),
    h.2.2.2 "/s" (by decide) (by decide) ⟨"/d/s/stale", false, false, .ok⟩
      (by decide) rfl rfl⟩

/-! ## C5 — progress values -/

/-- The scan phase emits no progress events. -/
theorem scanAll_no_progress (w : World) (excludes : List String) :
    ∀ ss : List String, progressValues (scanAll w excludes ss).1 = [] := by
  intro ss
  induction ss with
  | nil => rfl
  | cons src rest ih =>
      rw [scanAll]
      cases w.fsTree src with
      | none => simpa [progressValues] using ih
      | some t =>
          dsimp only []
          cases scanEntries excludes w.fm (pathName src) (walkDir src "" t) with
          | error e => rfl
          | ok p =>
              cases p with
              | mk ts tot => exact ih

/-- The submission loop emits no progress events. -/
theorem dispatchGo_no_progress (stopAt : Nat → Bool) :
    ∀ (ms : List SyncTask) (i : Nat),
      progressValues (dispatchGo stopAt i ms).2 = [] := by
  intro ms
  induction ms with
  | nil => intro i; rfl
  | cons t rest ih =>
      intro i
      rw [dispatchGo]
      by_cases hstop : stopAt i
      · rw [if_pos hstop]; rfl
      · rw [if_neg hstop]; exact ih (i + 1)

/-- One destination walk's pruning emits no progress events. -/
theorem pruneGo_no_progress :
    ∀ items : List PruneItem, progressValues (pruneGo items).1 = [] := by
  intro items
  induction items with
  | nil => rfl
  | cons it rest ih =>
      rw [pruneGo]
      by_cases horig : it.origExists
      · rw [if_pos horig]; exact ih
      · rw [if_neg horig]
        by_cases hdir : it.isDir
        · rw [if_pos hdir]
          cases it.delRes with
          | ok => simpa [progressValues] using ih
          | notFound => simpa [progressValues] using ih
          | otherFail => simpa [progressValues] using ih
        · rw [if_neg hdir]
          cases it.delRes with
          | ok => simpa [progressValues] using ih
          | notFound => exact ih
          | otherFail => rfl

/-- The prune phase emits no progress events. -/
theorem pruneAll_no_progress (w : World) (destRoot : String) :
    ∀ ss : List String, progressValues (pruneAll w destRoot ss).1 = [] := by
  intro ss
  induction ss with
  | nil => rfl
  | cons s0 rest ih =>
      rw [pruneAll]
      by_cases hre : w.rootExists (joinPath destRoot (pathName s0))
      · rw [if_pos hre]
        cases (pruneGo (w.pruneItems (joinPath destRoot (pathName s0)))).2 with
        | some e => exact pruneGo_no_progress _
        | none =>
            simp only [progressValues, List.filterMap_append]
            rw [show (pruneGo (w.pruneItems (joinPath destRoot (pathName s0)))).1.filterMap
                (fun e => match e with | .progress n => some n | _ => none) =
                progressValues (pruneGo (w.pruneItems (joinPath destRoot (pathName s0)))).1
              from rfl,
              show (pruneAll w destRoot rest).1.filterMap
                (fun e => match e with | .progress n => some n | _ => none) =
                progressValues (pruneAll w destRoot rest).1 from rfl]
            rw [pruneGo_no_progress, ih]
            rfl
      · rw [if_neg hre]; exact ih

/-- The progress events of the completion loop are exactly the running
`copied_bytes` totals pushed through the percent formula. -/
theorem completionGo_pvs (cf : String → Option String) (ds : String → StatRes)
    (tasks : List SyncTask) (total : Nat) :
    ∀ (order : List Nat) (copied : Nat),
      progressValues (completionGo cf ds tasks total order copied).1 =
        (prefixSums copied (completedSizes ds tasks order)).map (pctOf total) := by
  intro order
  induction order with
  | nil => intro copied; rfl
  | cons j rest ih =>
      intro copied
      rw [completionGo, completedSizes]
      cases tasks[j]? with
      | none => exact ih copied
      | some t =>
          dsimp only []
          cases ds t.src with
          | ok n =>
              dsimp only []
              rw [prefixSums]
              simp only [copyEventOf, progressValues, List.filterMap_cons]
              cases cf t.src
              all_goals
                dsimp only []
                rw [show ((completionGo cf ds tasks total rest (copied + n)).1).filterMap
                    (fun e => match e with | .progress n => some n | _ => none) =
                    progressValues (completionGo cf ds tasks total rest (copied + n)).1
                  from rfl, ih (copied + n)]
                rfl
          | notFound =>
              dsimp only []
              simp only [copyEventOf, progressValues, List.filterMap_cons]
              cases cf t.src
              all_goals
                dsimp only []
                exact ih copied
          | otherErr =>
              dsimp only []
              simp only [copyEventOf, progressValues, List.filterMap_cons]
              cases cf t.src
              all_goals rfl

/-- Single-step progress-value reductions. -/
theorem pv_scanStarted (l : List Event) :
    progressValues (Event.scanStarted :: l) = progressValues l := rfl

/-- Progress values skip a `scanning_finished` event. -/
theorem pv_scanFinished (l : List Event) :
    progressValues (Event.scanFinished :: l) = progressValues l := rfl

/-- Progress values skip a status event. -/
theorem pv_status (m : String) (l : List Event) :
    progressValues (Event.status m :: l) = progressValues l := rfl

/-- Progress values skip a warning. -/
theorem pv_warn (m : String) (l : List Event) :
    progressValues (Event.warn m :: l) = progressValues l := rfl

/-- Progress values keep a progress event. -/
theorem pv_progress (n : Nat) (l : List Event) :
    progressValues (Event.progress n :: l) = n :: progressValues l := rfl

/-- Progress values distribute over append. -/
theorem pv_append (l1 l2 : List Event) :
    progressValues (l1 ++ l2) = progressValues l1 ++ progressValues l2 :=
  List.filterMap_append _ _ _

/-- Progress values of the empty event list. -/
theorem pv_nil : progressValues [] = [] := rfl

/-- With no dispatched tasks there are no completion sizes. -/
theorem completedSizes_nil (ds : String → StatRes) :
    ∀ order : List Nat, completedSizes ds [] order = [] := by
  intro order
  induction order with
  | nil => rfl
  | cons j rest ih => rw [completedSizes]; exact ih

/-- The run's progress events are the per-completion percents, plus the
final unconditional `progress(100)` exactly when the run finishes without
an unhandled error. -/
theorem sync_pvs (cfg : BackupConfig) (ov : Option String) (w : World) :
    progressValues (sync cfg ov w).events =
      (prefixSums 0 (completedSizes w.doneStat (sync cfg ov w).tasks w.order)).map
        (pctOf (sync cfg ov w).total) ++
      (if (sync cfg ov w).err = none then [100] else []) := by
  rw [sync, if_neg (by simp [pathTruthy])]
  rcases hsc : (scanAll w cfg.excludes cfg.sources).2 with e | ⟨ms, tot⟩
  · dsimp only []
    rw [pv_scanStarted, scanAll_no_progress, completedSizes_nil]
    simp [prefixSums]
  · dsimp only []
    cases hc : (completionGo w.copyFail w.doneStat (dispatchGo w.stopAt 0 ms).1
        tot w.order 0).2.2 with
    | some e2 =>
        dsimp only []
        simp only [pv_append, pv_scanStarted, pv_scanFinished, pv_status, pv_warn,
          pv_progress, pv_nil]
        rw [scanAll_no_progress, dispatchGo_no_progress, completionGo_pvs]
        simp
    | none =>
        cases hp : (pruneAll w (pathOf (pyOr ov cfg.destination)) cfg.sources).2 with
        | some e2 =>
            dsimp only []
            simp only [pv_append, pv_scanStarted, pv_scanFinished, pv_status, pv_warn,
              pv_progress, pv_nil]
            rw [scanAll_no_progress, dispatchGo_no_progress, completionGo_pvs,
              pruneAll_no_progress]
            simp
        | none =>
            dsimp only []
            simp only [pv_append, pv_scanStarted, pv_scanFinished, pv_status, pv_warn,
              pv_progress, pv_nil]
            rw [scanAll_no_progress, dispatchGo_no_progress, completionGo_pvs,
              pruneAll_no_progress]
            simp

/-- Every prefix sum is bounded by the full sum. -/
theorem prefixSums_le : ∀ (ns : List Nat) (acc : Nat),
    ∀ v ∈ prefixSums acc ns, v ≤ acc + ns.sum := by
  intro ns
  induction ns with
  | nil =>
      intro acc v hv
      cases hv
  | cons n rest ih =>
      intro acc v hv
      rw [prefixSums] at hv
      rcases List.mem_cons.mp hv with he | he
      · subst he
        rw [List.sum_cons]
        omega
      · have := ih (acc + n) v he
        rw [List.sum_cons]
        omega

/-- Prefix sums are non-decreasing. -/
theorem prefixSums_chain : ∀ (ns : List Nat) (acc : Nat),
    List.Chain' (· ≤ ·) (prefixSums acc ns) := by
  intro ns
  induction ns with
  | nil => intro acc; exact List.chain'_nil
  | cons n rest ih =>
      intro acc
      rw [prefixSums]
      rw [List.chain'_cons']
      refine ⟨?_, ih (acc + n)⟩
      intro y hy
      cases rest with
      | nil => cases hy
      | cons m rest2 =>
          rw [prefixSums] at hy
          simp only [List.head?_cons, Option.mem_def, Option.some_inj] at hy
          omega

/-- The percent formula is monotone in the copied bytes. -/
theorem pctOf_mono (total : Nat) {c c2 : Nat} (h : c ≤ c2) :
    pctOf total c ≤ pctOf total c2 := by
  unfold pctOf
  by_cases ht : total = 0
  · rw [if_pos ht, if_pos ht]
  · rw [if_neg ht, if_neg ht]
    exact Nat.div_le_div_right (Nat.mul_le_mul_right _ h)

/-- The percent formula stays within 100 when copied bytes do not exceed
the total. -/
theorem pctOf_le_100 (total c : Nat) (h : c ≤ total) : pctOf total c ≤ 100 := by
  unfold pctOf
  by_cases ht : total = 0
  · rw [if_pos ht]
  · rw [if_neg ht]
    calc c * 100 / total ≤ total * 100 / total :=
          Nat.div_le_div_right (Nat.mul_le_mul_right _ h)
      _ = 100 := by
          rw [Nat.mul_comm]
          exact Nat.mul_div_cancel _ (Nat.pos_of_ne_zero ht)

/-- The sizes actually accumulated by the completion loop are bounded by the
per-index completion sizes, even when the loop aborts early. -/
theorem completedSizes_le_sum (ds : String → StatRes) (tasks : List SyncTask) :
    ∀ order : List Nat,
      (completedSizes ds tasks order).sum ≤
        (order.map (doneSizeAt ds tasks)).sum := by
  intro order
  induction order with
  | nil => exact Nat.le_refl _
  | cons j rest ih =>
      rw [completedSizes, List.map_cons, List.sum_cons]
      rcases hq : tasks[j]? with _ | t
      · have hd0 : doneSizeAt ds tasks j = 0 := by simp [doneSizeAt, hq]
        rw [hd0]
        dsimp only []
        omega
      · have hd1 : doneSizeAt ds tasks j = statSize (ds t.src) := by
          simp [doneSizeAt, hq]
        rw [hd1]
        dsimp only []
        rcases hds : ds t.src with n | _ | _
        · rw [List.sum_cons, show statSize (StatRes.ok n) = n from rfl]
          omega
        · dsimp only []
          rw [show statSize StatRes.notFound = 0 from rfl]
          omega
        · simp

/-- The per-index completion size is a lookup in the mapped size list. -/
theorem doneSizeAt_eq_getD (ds : String → StatRes) (tasks : List SyncTask)
    (j : Nat) :
    doneSizeAt ds tasks j =
      (tasks.map (fun t => statSize (ds t.src))).getD j 0 := by
  rw [doneSizeAt, List.getD_eq_getElem?_getD, List.getElem?_map]
  cases tasks[j]? with
  | none => rfl
  | some t => rfl

/-- Summing a list by positions over `Finset.range` gives the list sum. -/
theorem sum_range_getD : ∀ L : List Nat,
    (∑ jj in Finset.range L.length, L.getD jj 0) = L.sum := by
  intro L
  induction L with
  | nil => rfl
  | cons a tl ih =>
      rw [List.length_cons, Finset.sum_range_succ']
      simp only [List.getD_cons_succ, List.getD_cons_zero]
      rw [ih, List.sum_cons]
      omega

/-- A sum over distinct in-range positions is at most the list sum. -/
theorem nodup_map_sum_le (order : List Nat) (L : List Nat)
    (hnd : order.Nodup) (hv : ∀ j ∈ order, j < L.length) :
    (order.map (fun j => L.getD j 0)).sum ≤ L.sum := by
  rw [← List.sum_toFinset _ hnd]
  rw [← sum_range_getD L]
  apply Finset.sum_le_sum_of_subset
  intro j hj
  rw [Finset.mem_range]
  exact hv j (List.mem_toFinset.mp hj)

/-- A prefix of a list of naturals sums to at most the whole list. -/
theorem sum_take_le : ∀ (L : List Nat) (k : Nat), (L.take k).sum ≤ L.sum := by
  intro L
  induction L with
  | nil => intro k; simp
  | cons a tl ih =>
      intro k
      cases k with
      | zero => simp
      | succ k2 =>
          rw [List.take_succ_cons, List.sum_cons, List.sum_cons]
          exact Nat.add_le_add_left (ih k2) a

/-- Under a stable filesystem — completion-time stats equal to the scan-time
stats recorded in the walked tree — the manifest's completion sizes sum to
exactly `total_bytes`. -/
theorem scanAll_total_stable (w : World) (excludes : List String) :
    ∀ (ss : List String) (ms : List SyncTask) (tot : Nat),
      (scanAll w excludes ss).2 = .ok (ms, tot) →
      (∀ e ∈ allRawEntries w ss, w.doneStat e.abs = statOf e.node) →
      (ms.map (fun t => statSize (w.doneStat t.src))).sum = tot := by
  intro ss
  induction ss with
  | nil =>
      intro ms tot hok _
      rw [scanAll] at hok
      simp only [Except.ok.injEq, Prod.mk.injEq] at hok
      rw [← hok.1, ← hok.2]
      rfl
  | cons src rest ih =>
      intro ms tot hok hstable
      rw [scanAll] at hok
      have hrest : ∀ e ∈ allRawEntries w rest, w.doneStat e.abs = statOf e.node := by
        intro e he
        refine hstable e ?_
        rw [allRawEntries, List.flatMap_cons]
        exact List.mem_append_right _ he
      cases htree : w.fsTree src with
      | none =>
          simp only [htree] at hok
          exact ih ms tot hok hrest
      | some tree =>
          simp only [htree] at hok
          rcases scanEntries_shape excludes w.fm (pathName src) (walkDir src "" tree)
            with hsh | hsh
          · simp only [hsh] at hok
            cases hok
          · simp only [hsh] at hok
            cases hq : (scanAll w excludes rest).2 with
            | error e2 =>
                rw [hq] at hok
                simp only [Except.map] at hok
                cases hok
            | ok p =>
                rw [hq] at hok
                simp only [Except.map, Except.ok.injEq, Prod.mk.injEq] at hok
                rw [← hok.1, ← hok.2]
                rw [List.map_append, List.sum_append]
                have hsrc : (List.map (fun t => statSize (w.doneStat t.src))
                    (List.map (toTask (pathName src))
                      (List.filter (fun e => ! is_excluded excludes w.fm e.abs)
                        (walkDir src "" tree)))).sum =
                    (List.map (fun e => statSize (statOf e.node))
                      (List.filter (fun e => ! is_excluded excludes w.fm e.abs)
                        (walkDir src "" tree))).sum := by
                  rw [List.map_map]
                  congr 1
                  apply List.map_congr_left
                  intro e hef
                  have hmem : e ∈ walkDir src "" tree := List.mem_filter.mp hef |>.1
                  have := hstable e (by
                    rw [allRawEntries, List.flatMap_cons]
                    refine List.mem_append_left _ ?_
                    rw [htree]
                    exact hmem)
                  simp [Function.comp, toTask, this]
                rw [hsrc, ih p.1 p.2 (by rw [hq]) hrest]

/-- The run's dispatched tasks and total, by scan outcome. -/
theorem sync_tasks_total (cfg : BackupConfig) (ov : Option String) (w : World) :
    ((sync cfg ov w).tasks = [] ∧ (sync cfg ov w).total = 0) ∨
    ∃ ms tot, (scanAll w cfg.excludes cfg.sources).2 = .ok (ms, tot) ∧
      (sync cfg ov w).tasks = (dispatchGo w.stopAt 0 ms).1 ∧
      (sync cfg ov w).total = tot := by
  rw [sync, if_neg (by simp [pathTruthy])]
  rcases hsc : (scanAll w cfg.excludes cfg.sources).2 with e | ⟨ms, tot⟩
  · dsimp only []
    exact Or.inl ⟨rfl, rfl⟩
  · dsimp only []
    cases (completionGo w.copyFail w.doneStat (dispatchGo w.stopAt 0 ms).1
        tot w.order 0).2.2 with
    | some e2 => exact Or.inr ⟨ms, tot, rfl, rfl, rfl⟩
    | none =>
        cases (pruneAll w (pathOf (pyOr ov cfg.destination)) cfg.sources).2 with
        | some e2 => exact Or.inr ⟨ms, tot, rfl, rfl, rfl⟩
        | none => exact Or.inr ⟨ms, tot, rfl, rfl, rfl⟩

/-- C5 (amended): each emitted progress value equals
`floor(completed_bytes * 100 / total_bytes)` (100 when the total is zero),
with the final unconditional `progress(100)` emitted exactly when the run
finishes without an unhandled error; and provided the filesystem is stable
(each completion-time stat equals the scan-time stat) and the completion
order is a valid enumeration of dispatched indices, every value lies in
0..100 and the sequence is non-decreasing.  Without stability the values
can exceed 100 and the sequence can decrease (see the counterexample); the
float division of line 220 is modelled as exact arithmetic. -/
theorem c5_progress (cfg : BackupConfig) (ov : Option String) (w : World) :
    ((sync cfg ov w).err = none →
      progressValues (sync cfg ov w).events =
        (prefixSums 0 (completedSizes w.doneStat (sync cfg ov w).tasks w.order)).map
          (pctOf (sync cfg ov w).total) ++ [100]) ∧
    ((∀ e ∈ allRawEntries w cfg.sources, w.doneStat e.abs = statOf e.node) →
      w.order.Nodup →
      (∀ j ∈ w.order, j < (sync cfg ov w).tasks.length) →
      (∀ v ∈ progressValues (sync cfg ov w).events, v ≤ 100) ∧
      List.Chain' (· ≤ ·) (progressValues (sync cfg ov w).events)) := by
  constructor
  · intro herr
    rw [sync_pvs, if_pos herr]
  · intro hstable hnd hval
    have hbound : (completedSizes w.doneStat (sync cfg ov w).tasks w.order).sum ≤
        (sync cfg ov w).total := by
      rcases sync_tasks_total cfg ov w with ⟨h1, h2⟩ | ⟨ms, tot, hsc, h1, h2⟩
      · rw [h1, h2, completedSizes_nil]
        simp
      · rw [h1, h2]
        calc (completedSizes w.doneStat (dispatchGo w.stopAt 0 ms).1 w.order).sum
            ≤ (w.order.map (doneSizeAt w.doneStat (dispatchGo w.stopAt 0 ms).1)).sum :=
              completedSizes_le_sum _ _ _
          _ = (w.order.map (fun j =>
                ((dispatchGo w.stopAt 0 ms).1.map
                  (fun t => statSize (w.doneStat t.src))).getD j 0)).sum := by
              congr 1
              exact List.map_congr_left (fun j _ => doneSizeAt_eq_getD _ _ j)
          _ ≤ ((dispatchGo w.stopAt 0 ms).1.map
                (fun t => statSize (w.doneStat t.src))).sum := by
              apply nodup_map_sum_le _ _ hnd
              intro j hj
              rw [List.length_map]
              have := hval j hj
              rw [h1] at this
              exact this
          _ ≤ (ms.map (fun t => statSize (w.doneStat t.src))).sum := by
              conv_lhs => rw [dispatchGo_take w.stopAt ms 0]
              rw [List.map_take]
              exact sum_take_le _ _
          _ = tot := scanAll_total_stable w cfg.excludes cfg.sources ms tot hsc hstable
    have hmapb : ∀ v ∈ (prefixSums 0 (completedSizes w.doneStat (sync cfg ov w).tasks
        w.order)).map (pctOf (sync cfg ov w).total), v ≤ 100 := by
      intro v hv
      obtain ⟨c, hc, hvc⟩ := List.mem_map.mp hv
      have hc2 := prefixSums_le _ 0 c hc
      rw [← hvc]
      exact pctOf_le_100 _ _ (by omega)
    constructor
    · rw [sync_pvs]
      intro v hv
      rcases List.mem_append.mp hv with hin | hin
      · exact hmapb v hin
      · by_cases herr : (sync cfg ov w).err = none
        · rw [if_pos herr] at hin
          have := List.mem_singleton.mp hin
          omega
        · rw [if_neg herr] at hin
          cases hin
    · rw [sync_pvs]
      rw [List.chain'_append]
      refine ⟨?_, ?_, ?_⟩
      · exact List.chain'_map_of_chain' _ (fun a b h => pctOf_mono _ h)
          (prefixSums_chain _ 0)
      · by_cases herr : (sync cfg ov w).err = none
        · rw [if_pos herr]
          exact List.chain'_singleton _
        · rw [if_neg herr]
          exact List.chain'_nil
      · intro x hx y hy
        have hx2 : x ∈ (prefixSums 0 (completedSizes w.doneStat (sync cfg ov w).tasks
            w.order)).map (pctOf (sync cfg ov w).total) := by
          obtain ⟨hne, hxe⟩ := List.mem_getLast?_eq_getLast hx
          rw [hxe]
          exact List.getLast_mem hne
        have hx100 := hmapb x hx2
        by_cases herr : (sync cfg ov w).err = none
        · rw [if_pos herr] at hy
          simp only [List.head?_cons, Option.mem_def, Option.some_inj] at hy
          omega
        · rw [if_neg herr] at hy
          simp at hy

/-- C5 witness: the stable single-file run emits exactly the percent
formula's values followed by the final 100, all within 0..100. -/
theorem c5_progress_witness :
    progressValues (sync cfgDest none wC5w).events =
      (prefixSums 0 (completedSizes wC5w.doneStat (sync cfgDest none wC5w).tasks
        wC5w.order)).map (pctOf (sync cfgDest none wC5w).total) ++ [100] ∧
    (∀ v ∈ progressValues (sync cfgDest none wC5w).events, v ≤ 100) := by
  have h := c5_progress cfgDest none wC5w
  refine ⟨h.1 (by decide), (h.2 ?_ ?_ ?_).1⟩
  · intro e he
    have hall : allRawEntries wC5w cfgDest.sources =
        [⟨"/s/a", "a", .fileNode (.ok 2)⟩] := rfl
    rw [hall] at he
    have he2 := List.mem_singleton.mp he
    subst he2
    rfl
  · decide
  · intro j hj
    have hord : wC5w.order = [0] := rfl
    rw [hord] at hj
    have hj2 := List.mem_singleton.mp hj
    subst hj2
    decide

end Backup
